import Mathlib

/-!
Verification of the MiniMax-M2 proxy parsing core.

This file shallowly embeds the Python sources of the repository's
parsing/streaming/session modules over `List Char` (Python `str`) and
proves the spec's testable properties against them:

  * `src/parsers/reasoning.py`  — `ensure_think_wrapped`, `split_think`
  * `src/parsers/tools.py`      — `convert_param_value`, `parse_tool_calls`,
                                  `tool_calls_to_minimax_xml`
  * `src/parsers/streaming.py`  — `SimpleStreamingParser`
  * `src/proxy/session_store.py`— `SessionStore.inject_or_repair`

Python strings are `List Char`; machine-level unicode subtleties
(non-ASCII case folding, lone surrogates) are idealised to the ASCII
behaviour, which is the only behaviour the repository exercises.
Fallible Python code is embedded in `Except`: statements that in Python
would raise (e.g. tuple-unpacking a string of the wrong length) are
modelled as `Except.error`.
-/

namespace MMProxy

/-- Python `str` is modelled as a list of characters. -/
abbrev Str := List Char

/-- Convenience: string literal to `Str`. -/
def lit (s : String) : Str := s.toList

/-- The characters Python's `str.strip` / `str.split()` / `\s` treat as
whitespace (ASCII subset; the repository only handles ASCII markers). -/
def isPySpace (c : Char) : Bool :=
  c = ' ' || c = '\t' || c = '\n' || c = '\r' || c = '\x0b' || c = '\x0c'

/-- Python `str.lstrip()`. -/
def pyLstrip (s : Str) : Str := s.dropWhile isPySpace

/-- Python `str.rstrip()`. -/
def pyRstrip (s : Str) : Str := ((s.reverse).dropWhile isPySpace).reverse

/-- Python `str.strip()`. -/
def pyStrip (s : Str) : Str := pyRstrip (pyLstrip s)

/-- Python `str.rstrip("\n")`. -/
def rstripNl (s : Str) : Str := ((s.reverse).dropWhile (· = '\n')).reverse

/-- Python `str.lower()` (ASCII). -/
def pyLower (s : Str) : Str := s.map Char.toLower

/-- Python substring test `pat in hay`. -/
def occursIn (hay pat : Str) : Bool :=
  if pat.isPrefixOf hay then true else
    match hay with
    | [] => false
    | _ :: t => occursIn t pat

/-- Python `hay.find(pat)`: index of the first occurrence (`none` for -1). -/
def findSub (hay pat : Str) : Option Nat :=
  if pat.isPrefixOf hay then some 0 else
    match hay with
    | [] => none
    | _ :: t => (findSub t pat).map (· + 1)

/-- Python `s.replace(old, new, 1)` specialised to an empty replacement:
remove the first occurrence of `old`. -/
def removeFirst (s old : Str) : Str :=
  match findSub s old with
  | none => s
  | some i => s.take i ++ s.drop (i + old.length)

/-- Reasoning markers (src/parsers/reasoning.py, src/parsers/streaming.py). -/
def openThink : Str := lit "<think>"

/-- The closing reasoning marker `</think>`. -/
def closeThink : Str := lit "</think>"

/-! ## src/parsers/reasoning.py -/

/-- `ensure_think_wrapped` (src/parsers/reasoning.py, lines 8-25): add a
missing `<think>` opening tag if `</think>` is present.  The source
returns a plain string. -/
def ensure_think_wrapped (text : Str) : Str :=
  if text.isEmpty || !occursIn text closeThink then text
  else
    let stripped := pyLstrip text
    if openThink.isPrefixOf stripped then text
    else
      let pre := text.take (text.length - stripped.length)
      pre ++ openThink ++ '\n' :: stripped

/-- `split_think` (src/parsers/reasoning.py, lines 28-69): split
`<think>...</think>` reasoning from visible content, looping over the
remaining text.  The loop is embedded with a fuel parameter so the kernel
can evaluate it; every Python iteration consumes at least 7 characters of
`remaining`, so `fuel := text.length` never runs out. -/
def split_think_loop : Nat → Str → List Str → List Str → List Str × List Str
  | 0, _, racc, vacc => (racc, vacc)
  | fuel + 1, remaining, racc, vacc =>
    if remaining = [] then (racc, vacc)
    else
      match findSub remaining openThink, findSub remaining closeThink with
      | some oi, cio =>
        if oi < (match cio with | some ci => ci | none => remaining.length) then
          let vacc2 := if 0 < oi then vacc ++ [remaining.take oi] else vacc
          match findSub (remaining.drop (oi + openThink.length)) closeThink with
          | none => (racc ++ [remaining.drop (oi + openThink.length)], vacc2)
          | some ci2 =>
            split_think_loop fuel
              ((remaining.drop (oi + openThink.length)).drop (ci2 + closeThink.length))
              (racc ++ [(remaining.drop (oi + openThink.length)).take ci2]) vacc2
        else
          match cio with
          | some ci => split_think_loop fuel (remaining.drop (ci + closeThink.length))
              (racc ++ [remaining.take ci]) vacc
          | none => (racc, vacc ++ [remaining])
      | none, some ci => split_think_loop fuel (remaining.drop (ci + closeThink.length))
          (racc ++ [remaining.take ci]) vacc
      | none, none => (racc, vacc ++ [remaining])

/-- `split_think` proper: returns `(reasoning_text, visible_text)`. -/
def split_think (text : Str) : Str × Str :=
  if text = [] then ([], [])
  else
    let (r, v) := split_think_loop text.length text [] []
    (r.flatten, v.flatten)

/-! ## Python/JSON value model

`PyVal` models the Python values produced by `json.loads` and by the
type-coercion helper: `None`, `bool`, `int`, `float`, `str`, `list`,
`dict`.  Python floats are idealised as exact rationals: the decimal
literals the proxy handles round-trip exactly at this precision and no
claim depends on IEEE-754 rounding. -/

inductive PyVal where
  | none
  | bool (b : Bool)
  | int (n : Int)
  | float (q : ℚ)
  | str (s : Str)
  | list (xs : List PyVal)
  | dict (kvs : List (Str × PyVal))

/-- Python dict assignment `d[k] = v`: overwrite in place if the key
exists (keeping its original position), else append. -/
def dictUpdate (d : List (Str × PyVal)) (k : Str) (v : PyVal) : List (Str × PyVal) :=
  if d.any (fun kv => kv.1 = k) then d.map (fun kv => if kv.1 = k then (k, v) else kv)
  else d ++ [(k, v)]

/-! ### json.loads (model of the stdlib decoder) -/

/-- JSON inter-token whitespace. -/
def jsonWs (c : Char) : Bool := c = ' ' || c = '\t' || c = '\n' || c = '\r'

/-- Skip JSON whitespace. -/
def skipJsonWs (s : Str) : Str := s.dropWhile jsonWs

/-- Hex digit value. -/
def hexVal (c : Char) : Option Nat :=
  if c.isDigit then some (c.toNat - 48)
  else if 'a' ≤ c ∧ c ≤ 'f' then some (c.toNat - 87)
  else if 'A' ≤ c ∧ c ≤ 'F' then some (c.toNat - 55)
  else Option.none

/-- JSON string body scanner (after the opening quote): returns the
decoded content and the rest after the closing quote.  `\uXXXX` escapes
outside the valid scalar range are idealised by `Char.ofNat`'s fallback;
raw control characters are rejected (strict mode). -/
def jsonString : Nat → Str → Option (Str × Str)
  | 0, _ => Option.none
  | fuel + 1, s =>
    match s with
    | [] => Option.none
    | '"' :: r => some ([], r)
    | '\\' :: e :: r =>
      let cont : Char → Str → Option (Str × Str) := fun c r' =>
        (jsonString fuel r').map (fun p => (c :: p.1, p.2))
      match e with
      | '"' => cont '"' r
      | '\\' => cont '\\' r
      | '/' => cont '/' r
      | 'b' => cont '\x08' r
      | 'f' => cont '\x0c' r
      | 'n' => cont '\n' r
      | 'r' => cont '\r' r
      | 't' => cont '\t' r
      | 'u' =>
        match r with
        | h1 :: h2 :: h3 :: h4 :: r' =>
          match hexVal h1, hexVal h2, hexVal h3, hexVal h4 with
          | some a, some b, some c, some d =>
            cont (Char.ofNat (((a * 16 + b) * 16 + c) * 16 + d)) r'
          | _, _, _, _ => Option.none
        | _ => Option.none
      | _ => Option.none
    | c :: r =>
      if c.toNat < 0x20 then Option.none
      else (jsonString fuel r).map (fun p => (c :: p.1, p.2))

/-- Value of a digit string. -/
def digitsToNat (ds : Str) : Nat := ds.foldl (fun acc c => acc * 10 + (c.toNat - 48)) 0

/-- Assemble a JSON number: `int` when there is no fraction and no
exponent (Python returns `int`), else `float`. -/
def mkJsonNumber (neg : Bool) (intDigits fracDigits : Str) (hasExp : Bool) (e : Int) : PyVal :=
  if fracDigits = [] ∧ hasExp = false then
    .int (if neg then -(digitsToNat intDigits : Int) else (digitsToNat intDigits : Int))
  else
    let mant : ℚ := (digitsToNat intDigits : ℚ) +
      (digitsToNat fracDigits : ℚ) / ((10 : ℚ) ^ fracDigits.length)
    let v : ℚ := mant * (10 : ℚ) ^ e
    .float (if neg then -v else v)

/-- Optional exponent part of a JSON number. -/
def jsonNumberExp (neg : Bool) (intDigits fracDigits : Str) (s : Str) :
    Option (PyVal × Str) :=
  match s with
  | e :: r =>
    if e = 'e' ∨ e = 'E' then
      let signR : Int × Str :=
        match r with
        | '+' :: rr => (1, rr)
        | '-' :: rr => (-1, rr)
        | _ => (1, r)
      let ed := signR.2.takeWhile Char.isDigit
      if ed = [] then Option.none
      else some (mkJsonNumber neg intDigits fracDigits true (signR.1 * (digitsToNat ed : Int)),
        signR.2.drop ed.length)
    else some (mkJsonNumber neg intDigits fracDigits false 0, e :: r)
  | [] => some (mkJsonNumber neg intDigits fracDigits false 0, [])

/-- JSON number scanner: `-?(0|[1-9]\d*)(\.\d+)?([eE][+-]?\d+)?`.
CPython additionally accepts `NaN`/`Infinity`, which have no rational
idealisation and are rejected here (no claim exercises them). -/
def jsonNumber (s : Str) : Option (PyVal × Str) :=
  let signS : Bool × Str :=
    match s with
    | '-' :: r => (true, r)
    | _ => (false, s)
  let intDigits := signS.2.takeWhile Char.isDigit
  if intDigits = [] then Option.none
  else if 1 < intDigits.length ∧ intDigits.take 1 = ['0'] then Option.none
  else
    let s2 := signS.2.drop intDigits.length
    match s2 with
    | '.' :: r =>
      let fd := r.takeWhile Char.isDigit
      if fd = [] then Option.none
      else jsonNumberExp signS.1 intDigits fd (r.drop fd.length)
    | _ => jsonNumberExp signS.1 intDigits [] s2

mutual

/-- JSON value scanner (fueled by nesting depth; `input.length + 1` always
suffices because each nesting level consumes at least one character). -/
def jsonValue : Nat → Str → Option (PyVal × Str)
  | 0, _ => Option.none
  | fuel + 1, s =>
    match s with
    | '\x7b' :: r =>
      match skipJsonWs r with
      | '\x7d' :: rr => some (.dict [], rr)
      | r' => jsonMembers fuel r' []
    | '[' :: r =>
      match skipJsonWs r with
      | ']' :: rr => some (.list [], rr)
      | r' => jsonElements fuel r' []
    | '"' :: r => (jsonString (r.length + 1) r).map (fun p => (PyVal.str p.1, p.2))
    | 't' :: r => if (lit "rue").isPrefixOf r then some (.bool true, r.drop 3) else Option.none
    | 'f' :: r => if (lit "alse").isPrefixOf r then some (.bool false, r.drop 4) else Option.none
    | 'n' :: r => if (lit "ull").isPrefixOf r then some (.none, r.drop 3) else Option.none
    | _ => jsonNumber s

/-- JSON array elements after the first `[` (at least one element). -/
def jsonElements : Nat → Str → List PyVal → Option (PyVal × Str)
  | 0, _, _ => Option.none
  | fuel + 1, s, acc =>
    match jsonValue fuel (skipJsonWs s) with
    | Option.none => Option.none
    | some (v, rest) =>
      match skipJsonWs rest with
      | ',' :: r => jsonElements fuel r (acc ++ [v])
      | ']' :: r => some (.list (acc ++ [v]), r)
      | _ => Option.none

/-- JSON object members after the first `{` (at least one member).
Duplicate keys follow Python dict semantics (last value wins). -/
def jsonMembers : Nat → Str → List (Str × PyVal) → Option (PyVal × Str)
  | 0, _, _ => Option.none
  | fuel + 1, s, acc =>
    match skipJsonWs s with
    | '"' :: r =>
      match jsonString (r.length + 1) r with
      | Option.none => Option.none
      | some (key, rest) =>
        match skipJsonWs rest with
        | ':' :: r2 =>
          match jsonValue fuel (skipJsonWs r2) with
          | Option.none => Option.none
          | some (v, rest2) =>
            match skipJsonWs rest2 with
            | ',' :: r3 => jsonMembers fuel r3 (dictUpdate acc key v)
            | '\x7d' :: r3 => some (.dict (dictUpdate acc key v), r3)
            | _ => Option.none
        | _ => Option.none
    | _ => Option.none

end

/-- Model of Python `json.loads`: parse one value, then only whitespace
may remain. -/
def pyJsonLoads (s : Str) : Option PyVal :=
  match jsonValue (s.length + 1) (skipJsonWs s) with
  | some (v, rest) => if skipJsonWs rest = [] then some v else Option.none
  | Option.none => Option.none

/-! ### json.dumps (model of the stdlib encoder, default separators,
`ensure_ascii=False`) -/

/-- Lower-case hex digit. -/
def hexDigit (n : Nat) : Char := if n < 10 then Char.ofNat (48 + n) else Char.ofNat (87 + n)

/-- JSON string escaping (`ensure_ascii=False`). -/
def jsonEscapeChar (c : Char) : Str :=
  if c = '"' then lit "\\\""
  else if c = '\\' then lit "\\\\"
  else if c = '\n' then lit "\\n"
  else if c = '\t' then lit "\\t"
  else if c = '\r' then lit "\\r"
  else if c = '\x08' then lit "\\b"
  else if c = '\x0c' then lit "\\f"
  else if c.toNat < 0x20 then lit "\\u00" ++ [hexDigit (c.toNat / 16), hexDigit (c.toNat % 16)]
  else [c]

/-- Serialise a JSON string literal. -/
def dumpStr (s : Str) : Str := '"' :: s.flatMap jsonEscapeChar ++ ['"']

/-- Decimal digits of a natural number. -/
def natDigits (n : Nat) : Str := Nat.toDigits 10 n

/-- Python `str`/`repr` of an int. -/
def intRepr (n : Int) : Str := if n < 0 then '-' :: natDigits (-n).toNat else natDigits n.toNat

/-- Text form of the rational float idealisation (sign, integer part, up
to 17 fractional digits).  Python prints shortest-roundtrip decimals; no
claim depends on this text form. -/
def floatRepr (q : ℚ) : Str :=
  let sgn : Str := if q < 0 then ['-'] else []
  let a : ℚ := |q|
  let ip : Nat := a.floor.toNat
  let frac : ℚ := a - a.floor
  let scaled : Nat := (frac * (10 : ℚ) ^ (17 : Nat)).floor.toNat
  let fds0 := natDigits scaled
  let fds := List.replicate (17 - fds0.length) '0' ++ fds0
  let fds2 := (fds.reverse.dropWhile (· = '0')).reverse
  sgn ++ natDigits ip ++ '.' :: (if fds2 = [] then ['0'] else fds2)

mutual

/-- Model of `json.dumps(·, ensure_ascii=False)` with default separators. -/
def pyJsonDumps : PyVal → Str
  | .none => lit "null"
  | .bool true => lit "true"
  | .bool false => lit "false"
  | .int n => intRepr n
  | .float q => floatRepr q
  | .str s => dumpStr s
  | .list xs => '[' :: dumpsElems xs ++ [']']
  | .dict kvs => '\x7b' :: dumpsPairs kvs ++ ['\x7d']

/-- Comma-joined list elements. -/
def dumpsElems : List PyVal → Str
  | [] => []
  | [x] => pyJsonDumps x
  | x :: y :: rest => pyJsonDumps x ++ ',' :: ' ' :: dumpsElems (y :: rest)

/-- Comma-joined object members. -/
def dumpsPairs : List (Str × PyVal) → Str
  | [] => []
  | [(k, v)] => dumpStr k ++ ':' :: ' ' :: pyJsonDumps v
  | (k, v) :: kv2 :: rest =>
    dumpStr k ++ ':' :: ' ' :: pyJsonDumps v ++ ',' :: ' ' :: dumpsPairs (kv2 :: rest)

end

/-- Python `str()` of a value.  The container cases are Python `repr`
text, which no embedded code path reaches (`_format_param_value_for_xml`
serialises containers as JSON first); they are modelled as the JSON text
for definiteness. -/
def pyStr (v : PyVal) : Str :=
  match v with
  | .none => lit "None"
  | .bool true => lit "True"
  | .bool false => lit "False"
  | .int n => intRepr n
  | .float q => floatRepr q
  | .str s => s
  | .list xs => pyJsonDumps (.list xs)
  | .dict kvs => pyJsonDumps (.dict kvs)

/-! ### Python int()/float() parsing -/

/-- Digit group with single underscores allowed between digits; returns
`(value, digitCount, rest)`.  The caller checks that the group starts
with a digit. -/
def digitGroupAux : Str → Nat → Nat → Nat × Nat × Str
  | '_' :: c :: r, acc, cnt =>
    if c.isDigit then digitGroupAux r (acc * 10 + (c.toNat - 48)) (cnt + 1)
    else (acc, cnt, '_' :: c :: r)
  | c :: r, acc, cnt =>
    if c.isDigit then digitGroupAux r (acc * 10 + (c.toNat - 48)) (cnt + 1)
    else (acc, cnt, c :: r)
  | [], acc, cnt => (acc, cnt, [])

/-- Model of Python `int(str)`: strip whitespace, optional sign, decimal
digits with optional underscore grouping (ASCII digits; Python's unicode
digits are an unexercised idealisation). -/
def pyIntOfString (s : Str) : Option Int :=
  let t := pyStrip s
  let signT : Bool × Str :=
    match t with
    | '+' :: r => (false, r)
    | '-' :: r => (true, r)
    | _ => (false, t)
  match signT.2 with
  | c :: _ =>
    if c.isDigit then
      match digitGroupAux signT.2 0 0 with
      | (v, _, []) => some (if signT.1 then -(v : Int) else (v : Int))
      | _ => Option.none
    else Option.none
  | [] => Option.none

/-- Exponent suffix of a Python float literal. -/
def pyFloatExp (neg : Bool) (mant : ℚ) (s : Str) : Option ℚ :=
  match s with
  | [] => some (if neg then -mant else mant)
  | e :: r =>
    if e = 'e' ∨ e = 'E' then
      let signR : Bool × Str :=
        match r with
        | '+' :: rr => (false, rr)
        | '-' :: rr => (true, rr)
        | _ => (false, r)
      match signR.2 with
      | c :: _ =>
        if c.isDigit then
          match digitGroupAux signR.2 0 0 with
          | (ev, _, []) =>
            let ei : Int := if signR.1 then -(ev : Int) else (ev : Int)
            some (if neg then -(mant * (10 : ℚ) ^ ei) else mant * (10 : ℚ) ^ ei)
          | _ => Option.none
        else Option.none
      | [] => Option.none
    else Option.none

/-- Model of Python `float(str)` over exact rationals: strip whitespace,
optional sign, `digits[.digits]`, `.digits` or `digits.`, optional
exponent; underscore grouping as in `int`.  Non-finite literals
(`inf`/`nan`) have no rational idealisation and are rejected (CPython
would build a non-finite float; no claim exercises them). -/
def pyFloatOfString (s : Str) : Option ℚ :=
  let t := pyStrip s
  let signT : Bool × Str :=
    match t with
    | '+' :: r => (false, r)
    | '-' :: r => (true, r)
    | _ => (false, t)
  match signT.2 with
  | '.' :: r =>
    match r with
    | c :: _ =>
      if c.isDigit then
        match digitGroupAux r 0 0 with
        | (fv, fc, rest) => pyFloatExp signT.1 ((fv : ℚ) / (10 : ℚ) ^ fc) rest
      else Option.none
    | [] => Option.none
  | c :: _ =>
    if c.isDigit then
      match digitGroupAux signT.2 0 0 with
      | (iv, _, rest) =>
        match rest with
        | '.' :: r2 =>
          match r2 with
          | d :: _ =>
            if d.isDigit then
              match digitGroupAux r2 0 0 with
              | (fv, fc, rest2) =>
                pyFloatExp signT.1 ((iv : ℚ) + (fv : ℚ) / (10 : ℚ) ^ fc) rest2
            else pyFloatExp signT.1 (iv : ℚ) r2
          | [] => pyFloatExp signT.1 (iv : ℚ) []
        | _ => pyFloatExp signT.1 (iv : ℚ) rest
    else Option.none
  | [] => Option.none

/-! ## src/parsers/tools.py -/

/-- `extract_name` (src/parsers/tools.py, lines 60-66): strip, then
remove one matching pair of surrounding quotes. -/
def extract_name (name_str : Str) : Str :=
  let s := pyStrip name_str
  if (s.head? = some '"' ∧ s.getLast? = some '"') ∨
      (s.head? = some '\'' ∧ s.getLast? = some '\'') then
    (s.drop 1).dropLast
  else s

/-- `convert_param_value` (src/parsers/tools.py, lines 69-101). -/
def convert_param_value (value : Str) (param_type : Str) : PyVal :=
  if pyLower value = lit "null" then .none
  else
    let pt := pyLower param_type
    if pt = lit "string" ∨ pt = lit "str" ∨ pt = lit "text" then .str value
    else if pt = lit "integer" ∨ pt = lit "int" then
      match pyIntOfString value with
      | some n => .int n
      | Option.none => .str value
    else if pt = lit "number" ∨ pt = lit "float" then
      match pyFloatOfString value with
      | some q => if q.den = 1 then .int q.num else .float q
      | Option.none => .str value
    else if pt = lit "boolean" ∨ pt = lit "bool" then
      .bool (decide (pyLower value = lit "true" ∨ pyLower value = lit "1"))
    else if pt = lit "object" ∨ pt = lit "array" then
      match pyJsonLoads value with
      | some v => v
      | Option.none => .str value
    else
      match pyJsonLoads value with
      | some v => v
      | Option.none => .str value

/-- The tool-call markers.  They appear literally in
src/parsers/tools.py (the quick-reject check and the regexes); the
`ToolCallParser` wrapper class referenced by src/parsers/streaming.py is
not among the sources, and per the spec these are its
`tool_call_start_token` / `tool_call_end_token` attributes. -/
def toolCallStartTok : Str := lit "<minimax:tool_call>"

/-- End marker `</minimax:tool_call>`. -/
def toolCallEndTok : Str := lit "</minimax:tool_call>"

/-- Literal `<invoke` (start of the invoke regex). -/
def invokeOpenTag : Str := lit "<invoke"

/-- Literal `</invoke>`. -/
def invokeCloseTag : Str := lit "</invoke>"

/-- Literal `<parameter`. -/
def paramOpenTag : Str := lit "<parameter"

/-- Literal `</parameter>`. -/
def paramCloseTag : Str := lit "</parameter>"

/-- A tool schema entry, as read by `parse_tool_calls`:
`name` models `tool["name"]`, `function_name` models
`tool["function"]["name"]`, and `properties` models
`tool["parameters"]["properties"]` (falling back to
`tool["function"]["parameters"]["properties"]`) reduced to each
property's declared `"type"` (`Option.none` inside the list when the
property dict has no `"type"` key; outer `Option.none` when there is no
properties dict). -/
structure ToolDef where
  name : Option Str
  function_name : Option Str
  properties : Option (List (Str × Option Str))
deriving DecidableEq, Repr

/-- `tool.get("name") or tool.get("function", {}).get("name")` (Python
`or`: empty string is falsy). -/
def toolName (t : ToolDef) : Option Str :=
  match t.name with
  | some n => if n = [] then t.function_name else some n
  | Option.none => t.function_name

/-- The `param_config` lookup of src/parsers/tools.py, lines 147-155:
first tool whose name matches, taking its properties (empty dict when
absent). -/
def getParamConfig (tools : Option (List ToolDef)) (fname : Str) : List (Str × Option Str) :=
  match tools with
  | Option.none => []
  | some ts =>
    match ts.find? (fun t => toolName t = some fname) with
    | some t => t.properties.getD []
    | Option.none => []

/-- Declared type for a parameter (src/parsers/tools.py, lines 171-175):
`"string"` unless the config lists the parameter with a `"type"`. -/
def typeFor (cfg : List (Str × Option Str)) (pname : Str) : Str :=
  match cfg.find? (fun kv => kv.1 = pname) with
  | some kv =>
    match kv.2 with
    | some t => t
    | Option.none => lit "string"
  | Option.none => lit "string"

/-- `re.findall(r"<minimax:tool_call>(.*?)</minimax:tool_call>", s, DOTALL)`:
repeatedly take the first start marker, capture up to the first end
marker after it, and resume after the end marker.  Fueled for kernel
evaluation; one unit of fuel per block, so `s.length` suffices. -/
def toolCallBlocksAux : Nat → Str → List Str
  | 0, _ => []
  | fuel + 1, s =>
    match findSub s toolCallStartTok with
    | Option.none => []
    | some i =>
      let rest := s.drop (i + toolCallStartTok.length)
      match findSub rest toolCallEndTok with
      | Option.none => []
      | some j => rest.take j :: toolCallBlocksAux fuel (rest.drop (j + toolCallEndTok.length))

/-- All complete `<minimax:tool_call>…</minimax:tool_call>` captures. -/
def toolCallBlocks (s : Str) : List Str := toolCallBlocksAux s.length s

/-- `re.sub` with the same pattern and empty replacement: drop every
complete call-block. -/
def subToolCallBlocksAux : Nat → Str → Str
  | 0, s => s
  | fuel + 1, s =>
    match findSub s toolCallStartTok with
    | Option.none => s
    | some i =>
      let rest := s.drop (i + toolCallStartTok.length)
      match findSub rest toolCallEndTok with
      | Option.none => s
      | some j => s.take i ++ subToolCallBlocksAux fuel (rest.drop (j + toolCallEndTok.length))

/-- The input with every complete call-block removed. -/
def subToolCallBlocks (s : Str) : Str := subToolCallBlocksAux s.length s

/-- The `\s+name\s*=\s*` part of the invoke/parameter regexes, right
after the literal open tag; returns the text after the final `\s*`.
Deterministic equivalent of the backtracking regex: `name`, `=` and the
lazy capture cannot start with whitespace, so each `\s+`/`\s*` must
consume its maximal run. -/
def headerAfter (s : Str) : Option Str :=
  let w := s.takeWhile isPySpace
  if w = [] then Option.none
  else
    let r1 := s.drop w.length
    if (lit "name").isPrefixOf r1 then
      let r2 := (r1.drop 4).dropWhile isPySpace
      match r2 with
      | '=' :: r3 => some (r3.dropWhile isPySpace)
      | _ => Option.none
    else Option.none

/-- `re.findall(r"<TAG\s+name\s*=\s*(.*?)</TAG>", s, DOTALL)` for a fixed
tag pair: scan for the open tag; if the attribute header fails, resume
one character later (as the regex engine does); else capture lazily up to
the first close tag and resume after it. -/
def tagFindallAux (openTok closeTok : Str) : Nat → Str → List Str
  | 0, _ => []
  | fuel + 1, s =>
    match findSub s openTok with
    | Option.none => []
    | some p =>
      match headerAfter (s.drop (p + openTok.length)) with
      | Option.none => tagFindallAux openTok closeTok fuel (s.drop (p + 1))
      | some afterEq =>
        match findSub afterEq closeTok with
        | Option.none => tagFindallAux openTok closeTok fuel (s.drop (p + 1))
        | some q => afterEq.take q :: tagFindallAux openTok closeTok fuel (afterEq.drop (q + closeTok.length))

/-- All invoke captures in a call-block. -/
def invokeFindall (s : Str) : List Str := tagFindallAux invokeOpenTag invokeCloseTag s.length s

/-- All parameter captures in an invoke capture. -/
def parameterFindall (s : Str) : List Str := tagFindallAux paramOpenTag paramCloseTag s.length s

/-- `re.search(r'^([^>]+)>(.*)', m, DOTALL)`: the (greedy, hence maximal)
non-`>` prefix, the mandatory `>`, and the rest. -/
def paramHeadMatch (m : Str) : Option (Str × Str) :=
  let g1 := m.takeWhile (· != '>')
  if g1 = [] then Option.none
  else
    match m.drop g1.length with
    | '>' :: g2 => some (g1, g2)
    | _ => Option.none

/-- Remove one leading and one trailing newline (src/parsers/tools.py,
lines 166-169; dead code after `.strip()`, kept for faithfulness). -/
def trimOneNl (v : Str) : Str :=
  let v1 := if v.head? = some '\n' then v.drop 1 else v
  if v1.getLast? = some '\n' then v1.dropLast else v1

/-- One decoded tool call in OpenAI format.  The uuid-generated `id` and
the constant `"type": "function"` field are omitted: the id is fresh
randomness per call and no claim mentions either. -/
structure ToolCallOut where
  name : Str
  arguments : Str
deriving DecidableEq, Repr

/-- Result of `parse_tool_calls`. -/
structure ParseResult where
  tools_called : Bool
  tool_calls : List ToolCallOut
  content : Option Str
deriving DecidableEq, Repr

/-- The body of the parameter loop (src/parsers/tools.py, lines 159-177):
each parameter capture is head-matched, stripped, newline-trimmed,
type-coerced and inserted into the (insertion-ordered) argument dict. -/
def paramStep (param_config : List (Str × Option Str)) (d : List (Str × PyVal))
    (pm : Str) : List (Str × PyVal) :=
  match paramHeadMatch pm with
  | Option.none => d
  | some kv =>
    let param_name := extract_name kv.1
    let param_value := trimOneNl (pyStrip kv.2)
    let param_type := typeFor param_config param_name
    dictUpdate d param_name (convert_param_value param_value param_type)

/-- Decode one invoke capture (src/parsers/tools.py, lines 138-187):
name from the non-`>` prefix, then the parameter loop over every
parameter capture. -/
def parseInvoke (invoke_match : Str) (tools : Option (List ToolDef)) : Option ToolCallOut :=
  let g1 := invoke_match.takeWhile (· != '>')
  if g1 = [] then Option.none
  else
    let function_name := extract_name g1
    let param_config := getParamConfig tools function_name
    let param_dict := (parameterFindall invoke_match).foldl (paramStep param_config) []
    some ⟨function_name, pyJsonDumps (.dict param_dict)⟩

/-- `parse_tool_calls` (src/parsers/tools.py, lines 104-212).  The
Python `try`/`except` around the scan cannot fire in this embedding (the
scanners are total); its fail-open result coincides with the
`tool_calls == []` branch. -/
def parse_tool_calls (model_output : Str) (tools : Option (List ToolDef)) : ParseResult :=
  if !occursIn model_output toolCallStartTok then
    ⟨false, [], some model_output⟩
  else
    let tool_calls := (toolCallBlocks model_output).flatMap
      (fun block => (invokeFindall block).filterMap (fun inv => parseInvoke inv tools))
    if tool_calls = [] then ⟨false, [], some model_output⟩
    else
      let content := pyStrip (subToolCallBlocks model_output)
      ⟨true, tool_calls, if content = [] then Option.none else some content⟩

/-! ### The encoder `tool_calls_to_minimax_xml` -/

/-- One OpenAI-format call handed to the encoder: `function_name` models
`call["function"]["name"]`, `call_name` models `call["name"]`, and
`arguments` models `call["function"]["arguments"]` (`PyVal.none` when
absent, exactly Python's `.get` default). -/
structure EncCall where
  function_name : Option Str
  call_name : Option Str
  arguments : PyVal

/-- Python truthy-`or` over optional strings. -/
def pyOrS (a : Option Str) (b : Str) : Str :=
  match a with
  | some s => if s = [] then b else s
  | Option.none => b

/-- `_format_param_value_for_xml` (src/parsers/tools.py, lines 13-20):
containers are JSON-serialised, everything else is `str()`-ed.  The
`except` fallback to `str(value)` cannot fire for `PyVal` (always
serialisable). -/
def format_param_value_for_xml (value : PyVal) : Str :=
  match value with
  | .dict kvs => pyJsonDumps (.dict kvs)
  | .list xs => pyJsonDumps (.list xs)
  | v => pyStr v

/-- The `lines` contributed by one call (src/parsers/tools.py,
lines 30-54). -/
def encCallLines (call : EncCall) : List Str :=
  let name := pyOrS call.function_name (pyOrS call.call_name [])
  let parsed_args : PyVal :=
    match call.arguments with
    | .str s =>
      match pyJsonLoads s with
      | some v => v
      | Option.none => .str s
    | a => a
  (lit "<invoke name=\"" ++ name ++ lit "\">") ::
  ((match parsed_args with
    | .dict pairs => pairs.flatMap (fun kv =>
        [lit "<parameter name=\"" ++ kv.1 ++ lit "\">",
         format_param_value_for_xml kv.2,
         lit "</parameter>"])
    | v => [lit "<parameter name=\"input\">",
            format_param_value_for_xml v,
            lit "</parameter>"]) ++
   [lit "</invoke>"])

/-- Python `"\n".join(lines)`. -/
def joinNl (lines : List Str) : Str :=
  match lines with
  | [] => []
  | l :: ls => l ++ ls.flatMap (fun x => '\n' :: x)

/-- `tool_calls_to_minimax_xml` (src/parsers/tools.py, lines 23-57).
Python's falsy check covers both `None` and `[]`; the embedding takes the
list. -/
def tool_calls_to_minimax_xml (tool_calls : List EncCall) : Option Str :=
  if tool_calls.isEmpty then Option.none
  else some (joinNl (toolCallStartTok :: (tool_calls.flatMap encCallLines ++ [toolCallEndTok])))

/-! ### Round-trip helper data (claim C6)

A call is given as a name plus string-valued parameters; `strCall` is the
corresponding OpenAI-format call handed to the encoder.  The `…Chunk` and
`…Capture` definitions name the pieces of the encoder output and the
corresponding regex captures of the decoder. -/

/-- Encoder input: the call `(name, params)` with a string-valued dict of
arguments. -/
def strCall (c : Str × List (Str × Str)) : EncCall :=
  ⟨some c.1, Option.none, .dict (c.2.map (fun kv => (kv.1, .str kv.2)))⟩

/-- A safe tag-attribute name: nonempty, no angle brackets. -/
def nameOk (n : Str) : Bool :=
  !n.isEmpty && n.all (fun ch => ch != '<' && ch != '>')

/-- A safe parameter value: contains no closing tag of any scan level and
does not strip to the literal `null` (case-insensitively). -/
def valueOk (v : Str) : Bool :=
  !occursIn v paramCloseTag && !occursIn v invokeCloseTag && !occursIn v toolCallEndTok
    && !(pyLower (pyStrip v) == lit "null")

/-- The decoded (stripped, string-typed) argument pairs. -/
def decodedPairs (ps : List (Str × Str)) : List (Str × PyVal) :=
  ps.map (fun kv => (kv.1, .str (pyStrip kv.2)))

/-- The text one parameter contributes to the newline-joined encoder
output. -/
def paramChunk (kv : Str × Str) : Str :=
  lit "\n<parameter name=\"" ++ kv.1 ++ lit "\">\n" ++ kv.2 ++ lit "\n</parameter>"

/-- The text all parameters of one call contribute. -/
def paramsChunk (ps : List (Str × Str)) : Str := ps.flatMap paramChunk

/-- The text one call contributes to the newline-joined encoder output. -/
def callChunk (c : Str × List (Str × Str)) : Str :=
  lit "\n<invoke name=\"" ++ c.1 ++ lit "\">" ++ paramsChunk c.2 ++ lit "\n</invoke>"

/-- The encoder output between the two block markers. -/
def innerStr (L : List (Str × List (Str × Str))) : Str :=
  L.flatMap callChunk ++ ['\n']

/-- The parameter-regex capture the decoder sees for one parameter. -/
def paramCapture (kv : Str × Str) : Str :=
  lit "\"" ++ kv.1 ++ lit "\">\n" ++ kv.2 ++ lit "\n"

/-- The invoke-regex capture the decoder sees for one call. -/
def invCapture (c : Str × List (Str × Str)) : Str :=
  lit "\"" ++ c.1 ++ lit "\">" ++ paramsChunk c.2 ++ lit "\n"

/-! ## src/parsers/streaming.py — SimpleStreamingParser -/

/-- Python exceptions the embedding can raise. -/
inductive PyErr where
  | valueError
deriving DecidableEq, Repr

/-- Tuple-unpacking a string into two names (`a, b = s`): succeeds only
when the string has exactly two characters (each bound name receives a
one-character string); any other length raises ValueError. -/
def unpackStr2 (s : Str) : Except PyErr (Str × Str) :=
  match s with
  | [a, b] => .ok ([a], [b])
  | _ => .error .valueError

/-- Python `s.split(tok, 1)` under the guarantee that `tok` occurs (the
only way src/parsers/streaming.py calls it): the parts before and after
the first occurrence. -/
def splitFirst (s tok : Str) : Str × Str :=
  match findSub s tok with
  | some i => (s.take i, s.drop (i + tok.length))
  | Option.none => (s, [])

/-- Modelled from the spec: `ToolCallParser.has_tool_calls`.  The
`ToolCallParser` class is referenced by src/parsers/streaming.py and by
the tests but its body is not among the sources.  Spec §4.3 makes the
tool-call transition trigger "the instant the call-block start marker is
present in rawBuffer", and src/tests/test_parsers.py asserts
`has_tool_calls("<minimax:tool_call>test</minimax:tool_call>")` and
`not has_tool_calls("No tool calls here")`: the method tests membership
of the start marker. -/
def hasToolCallsTok (text : Str) : Bool := occursIn text toolCallStartTok

/-- Streaming parser state: the fields set in
`SimpleStreamingParser.__init__` (src/parsers/streaming.py,
lines 125-138).  The optional debug logger is pure diagnostics and is
omitted; `REASONING_BUFFER_LIMIT` is the instance attribute defaulting
to 1024. -/
structure SParser where
  accumulated : Str
  cursor : Nat
  tools_sent : Bool
  tools : Option (List ToolDef)
  pending_buffer : Str
  ready_to_emit : Bool
  emitted_content : Bool
  synthetic_think_close_sent : Bool
  reasoning_buffer_limit : Nat
deriving DecidableEq, Repr

/-- A freshly constructed `SimpleStreamingParser`. -/
def freshParser : SParser :=
  { accumulated := [], cursor := 0, tools_sent := false, tools := Option.none,
    pending_buffer := [], ready_to_emit := false, emitted_content := false,
    synthetic_think_close_sent := false, reasoning_buffer_limit := 1024 }

/-- The events `process_chunk` can emit: a content delta or a tool-call
batch (with optional accompanying content). -/
inductive Event where
  | content (delta : Str)
  | toolCalls (tool_calls : List ToolCallOut) (content : Option Str)
deriving DecidableEq, Repr

/-- `_maybe_flush_buffer` (src/parsers/streaming.py, lines 158-188).
`content, _ = ensure_think_wrapped(...)` tuple-unpacks the helper's
return value; since src/parsers/reasoning.py returns a plain string,
that statement raises ValueError unless the string has exactly two
characters. -/
def maybe_flush (p : SParser) (force_plain : Bool) : Except PyErr (SParser × Option Str) :=
  if p.pending_buffer = [] then .ok (p, Option.none)
  else
    if !p.ready_to_emit then
      if occursIn p.pending_buffer closeThink then
        match unpackStr2 (ensure_think_wrapped p.pending_buffer) with
        | .error e => .error e
        | .ok up => .ok ({ p with pending_buffer := [], ready_to_emit := true }, some up.1)
      else if force_plain || decide (p.reasoning_buffer_limit ≤ p.pending_buffer.length) then
        if !occursIn p.pending_buffer closeThink && occursIn p.accumulated toolCallStartTok then
          match unpackStr2 (ensure_think_wrapped (p.pending_buffer ++ closeThink)) with
          | .error e => .error e
          | .ok up => .ok ({ p with pending_buffer := [], ready_to_emit := true, synthetic_think_close_sent := true }, some up.1)
        else
          .ok ({ p with pending_buffer := [], ready_to_emit := true }, some p.pending_buffer)
      else .ok (p, Option.none)
    else
      .ok ({ p with pending_buffer := [] }, some p.pending_buffer)

/-- `flush_pending` (src/parsers/streaming.py, lines 190-192). -/
def flush_pending (p : SParser) : Except PyErr (SParser × Option Str) := maybe_flush p true

/-- Python truthiness of an optional string (`None` and `""` falsy). -/
def strOptTruthy : Option Str → Bool
  | some s => !s.isEmpty
  | Option.none => false

/-- The content-delta cut of src/parsers/streaming.py, lines 265-268:
remove any pending tool-XML fragment from the delta. -/
def contentCut (cd : Str) : Str :=
  if occursIn cd toolCallStartTok then
    match findSub cd toolCallStartTok with
    | some idx => cd.take idx
    | Option.none => cd
  else cd

def processContentPhase (st : SParser) : Except PyErr (SParser × Option Event) :=
  if (occursIn st.accumulated toolCallStartTok && !occursIn st.accumulated toolCallEndTok) = false then
    match maybe_flush st false with
    | .error e => .error e
    | .ok fl =>
      match fl.2 with
      | some cd =>
        if !(contentCut cd).isEmpty then
          .ok ({ fl.1 with emitted_content := true }, some (.content (contentCut cd)))
        else .ok (fl.1, Option.none)
      | Option.none => .ok (fl.1, Option.none)
  else .ok (st, Option.none)

/-- The chunk-ingestion prefix of `process_chunk`
(src/parsers/streaming.py, lines 205-218): extend `accumulated`, advance
the cursor, drop one real `</think>` from the new segment if a synthetic
close was sent, and append the segment to the pending buffer. -/
def ingestChunk (p : SParser) (chunk_text : Str) : SParser :=
  let accumulated := p.accumulated ++ chunk_text
  let new_segment := accumulated.drop p.cursor
  let cursor := accumulated.length
  if new_segment = [] then
    { p with accumulated := accumulated, cursor := cursor }
  else
    let segSyn : Str × Bool :=
      if p.synthetic_think_close_sent && occursIn new_segment closeThink then
        (removeFirst new_segment closeThink, false)
      else (new_segment, p.synthetic_think_close_sent)
    { p with accumulated := accumulated, cursor := cursor, pending_buffer := p.pending_buffer ++ segSyn.1, synthetic_think_close_sent := segSyn.2 }

/-- Lines 230-235 of the complete-tool-call branch of `process_chunk`
(src/parsers/streaming.py): the not-yet-emitted-content wrap (synthesise a
closing `</think>` after the cut delta) or the already-emitted `None`. -/
def toolDeltaWrap (cdA : Str) (emitted : Bool) : Option Str :=
  if !emitted then
    if !occursIn cdA closeThink then some (rstripNl cdA ++ '\n' :: closeThink)
    else some cdA
  else Option.none

/-- Lines 228-235: cut the flushed delta at the tool-call start marker
and right-strip it, when the marker is present in a truthy delta. -/
def cutToolDelta (cd : Str) (emitted : Bool) : Option Str :=
  if !cd.isEmpty && occursIn cd toolCallStartTok then
    toolDeltaWrap (pyRstrip (splitFirst cd toolCallStartTok).1) emitted
  else some cd

/-- Lines 227-237: the `content_delta` accompanying a tool-call batch,
before the empty-string-to-None normalisation. -/
def toolDelta (o : Option Str) (emitted : Bool) : Option Str :=
  match o with
  | some cd => cutToolDelta cd emitted
  | Option.none => Option.none

/-- Lines 236-251: given the parse result and the forced flush output,
build the new state and the batch event. -/
def emitToolCallsOk (result : ParseResult) (fl : SParser × Option Str) : SParser × Option Event :=
  match (if toolDelta fl.2 fl.1.emitted_content = some [] then Option.none
         else toolDelta fl.2 fl.1.emitted_content) with
  | some c =>
    ({ fl.1 with emitted_content := true }, some (.toolCalls result.tool_calls (some c)))
  | Option.none =>
    if !fl.1.emitted_content && strOptTruthy result.content then
      ({ fl.1 with emitted_content := true },
        some (.toolCalls result.tool_calls result.content))
    else (fl.1, some (.toolCalls result.tool_calls Option.none))

/-- The complete-tool-call branch of `process_chunk`
(src/parsers/streaming.py, lines 222-251): parse the accumulated text;
when calls were decoded, force-flush buffered content and emit the one
batch event; when no calls were decoded, fall through to the content
phase (the Python `if` simply does not return). -/
def emitToolCalls (st1 : SParser) : Except PyErr (SParser × Option Event) :=
  if (parse_tool_calls st1.accumulated st1.tools).tools_called then
    match maybe_flush { st1 with tools_sent := true } true with
    | .error e => .error e
    | .ok fl => .ok (emitToolCallsOk (parse_tool_calls st1.accumulated st1.tools) fl)
  else
    processContentPhase st1

/-- `process_chunk` (src/parsers/streaming.py, lines 194-278). -/
def process_chunk (p : SParser) (chunk_text : Str) : Except PyErr (SParser × Option Event) :=
  if !(ingestChunk p chunk_text).tools_sent &&
      hasToolCallsTok (ingestChunk p chunk_text).accumulated then
    if occursIn (ingestChunk p chunk_text).accumulated toolCallEndTok then
      emitToolCalls (ingestChunk p chunk_text)
    else
      .ok (ingestChunk p chunk_text, Option.none)
  else
    processContentPhase (ingestChunk p chunk_text)

/-- Feed chunks in order from a given state, collecting emitted events;
a raised exception aborts the run (`Option.none` final state). -/
def runChunks : SParser → List Str → List Event × Option SParser
  | p, [] => ([], some p)
  | p, c :: cs =>
    match process_chunk p c with
    | .error _ => ([], Option.none)
    | .ok pe =>
      let rest := runChunks pe.1 cs
      ((match pe.2 with | some e => [e] | Option.none => []) ++ rest.1, rest.2)

/-- A full turn on a fresh parser: all chunks, then `flush_pending`,
whose optional string output the proxy surfaces as one final content
delta. -/
def runTurn (cs : List Str) : List Event :=
  match (runChunks freshParser cs).2 with
  | Option.none => (runChunks freshParser cs).1
  | some p =>
    match flush_pending p with
    | .error _ => (runChunks freshParser cs).1
    | .ok fl =>
      match fl.2 with
      | Option.none => (runChunks freshParser cs).1
      | some c => (runChunks freshParser cs).1 ++ [.content c]

/-- Event classifier: tool-call batch events. -/
def isToolCallsEvent : Event → Bool
  | .toolCalls _ _ => true
  | .content _ => false

/-- The parser state while only buffering: everything received so far is
both accumulated and pending, nothing was emitted.  A fresh parser is
`bufState []`. -/
def bufState (s : Str) : SParser :=
  { accumulated := s, cursor := s.length, tools_sent := false, tools := Option.none,
    pending_buffer := s, ready_to_emit := false, emitted_content := false,
    synthetic_think_close_sent := false, reasoning_buffer_limit := 1024 }

/-! ## src/proxy/session_store.py: history repair

Messages are embedded as records over exactly the keys the repair path
reads: `role`, `name`, `content` (each absent or bound to a string) and
`reasoning_details` (absent or bound to a list whose entries are either
dicts whose `text` key is absent or bound to a string, or non-dict
values). -/

/-- One entry of a `reasoning_details` list: a dict with an optional string
`text`, or any non-dict value (skipped by the merge loop's
`isinstance(detail, dict)` guard). -/
inductive RDetail where
  | obj (text : Option Str)
  | notDict
deriving DecidableEq, Repr

/-- A chat message restricted to the keys `inject_or_repair` and its
helpers read. -/
structure Msg where
  role : Option Str
  name : Option Str
  content : Option Str
  reasoning_details : Option (List RDetail)
deriving DecidableEq, Repr

/-- Python truthiness of a message dict over the embedded key space:
`not message` holds iff every key is absent. -/
def msgEmpty (m : Msg) : Bool :=
  m.role.isNone && m.name.isNone && m.content.isNone && m.reasoning_details.isNone

/-- One reasoning detail's contribution `str(detail.get("text", ""))`;
non-dict entries contribute nothing. -/
def rdText : RDetail → Str
  | .obj t => t.getD []
  | .notDict => []

/-- The `reasoning_text` accumulation loop of `_normalize_assistant_message`
(src/proxy/session_store.py lines 206-211); a missing or non-list value
fails the `isinstance(reasoning_details, list)` guard. -/
def reasoningText : Option (List RDetail) → Str
  | some ds => (ds.map rdText).flatten
  | Option.none => []

/-- The `reason_block` assembly of src/proxy/session_store.py lines
215-217: a newline is appended when the existing content is non-empty and
does not already start with one; then the block is prepended. -/
def thinkBlock (rt content : Str) : Str :=
  if content.isEmpty = false && (content.head? == some '\n') = false then
    openThink ++ rt ++ closeThink ++ '\n' :: content
  else
    openThink ++ rt ++ closeThink ++ content

/-- The new `content` value computed by `_normalize_assistant_message`
(lines 213-220): `content or ""` is Python truthiness of the optional
content string. -/
def normContent (content : Option Str) (rds : Option (List RDetail)) : Option Str :=
  if (reasoningText rds).isEmpty = false then
    some (thinkBlock (reasoningText rds) (content.getD []))
  else if (content.getD []).isEmpty = false && occursIn (content.getD []) closeThink then
    some (ensure_think_wrapped (content.getD []))
  else content

/-- src/proxy/session_store.py lines 199-222: merge reasoning details into
content for comparison; non-assistant messages are returned unchanged,
assistant messages get `reasoning_details` popped. -/
def normalize_assistant_message (m : Msg) : Msg :=
  if m.role == some (lit "assistant") then
    Msg.mk m.role m.name (normContent m.content m.reasoning_details) Option.none
  else m

/-- src/proxy/session_store.py lines 224-235: scan the history (in reverse)
for an assistant message whose normalization equals the stored assistant's;
a falsy (empty) assistant counts as present. -/
def assistant_in_history (messages : List Msg) (assistant : Msg) : Bool :=
  if msgEmpty assistant then true
  else
    messages.reverse.any (fun message =>
      message.role == some (lit "assistant")
      && normalize_assistant_message message == normalize_assistant_message assistant)

/-- Insertion point for the stored assistant (src/proxy/session_store.py
lines 260-269): index of the first message whose role is "tool", or whose
role is "user" with name "tool_result"; the list length when none exists. -/
def insertIndex (messages : List Msg) : Nat :=
  match messages.findIdx? (fun message =>
    message.role == some (lit "tool")
    || (message.role == some (lit "user") && message.name == some (lit "tool_result"))) with
  | some i => i
  | Option.none => messages.length

/-- Result metadata for history repair attempts (src/proxy/session_store.py
lines 17-25). -/
structure RepairResult where
  messages : List Msg
  repaired : Bool
  reason : Option Str
  skipped : Bool
  skip_reason : Option Str
deriving DecidableEq, Repr

/-- src/proxy/session_store.py lines 237-272.  The store read
`self.get_last_assistant(session_id)` (backend I/O) is abstracted as the
parameter `stored`; `enabled` is `self.enabled`.  The Python falsiness
test `if not stored_assistant` covers both `None` and the empty dict. -/
def inject_or_repair (enabled : Bool) (stored : Option Msg) (messages : List Msg)
    (session_id : Option Str) (require_session : Bool) : RepairResult :=
  if enabled = false then
    { messages := messages, repaired := false, reason := Option.none,
      skipped := true, skip_reason := some (lit "disabled") }
  else if strOptTruthy session_id = false then
    { messages := messages, repaired := false, reason := Option.none, skipped := true,
      skip_reason := some (if require_session then lit "missing_session_id"
        else lit "missing_session_id_optional") }
  else
    match stored with
    | Option.none =>
      { messages := messages, repaired := false, reason := Option.none,
        skipped := true, skip_reason := some (lit "no_history") }
    | some stored_assistant =>
      if msgEmpty stored_assistant then
        { messages := messages, repaired := false, reason := Option.none,
          skipped := true, skip_reason := some (lit "no_history") }
      else if assistant_in_history messages stored_assistant then
        { messages := messages, repaired := false, reason := Option.none,
          skipped := true, skip_reason := some (lit "assistant_present") }
      else
        { messages := messages.take (insertIndex messages)
            ++ stored_assistant :: messages.drop (insertIndex messages),
          repaired := true, reason := some (lit "assistant_injected"),
          skipped := false, skip_reason := Option.none }

/-- Concrete user message for spec Scenario D. -/
def userMsgD : Msg := Msg.mk (some (lit "user")) Option.none (some (lit "hi")) Option.none

/-- Concrete stored assistant message M for spec Scenario D. -/
def asstMsgD : Msg := Msg.mk (some (lit "assistant")) Option.none (some (lit "ok")) Option.none

/-- Concrete tool-result message for spec Scenario D. -/
def toolResMsgD : Msg :=
  Msg.mk (some (lit "tool")) (some (lit "tool_result")) (some (lit "result")) Option.none

/-! ## Leftmost-match scan framework (definitions)

`CleanBefore pat a b` says: no occurrence of `pat` starts strictly inside
`a` when scanning `a ++ b`.  It lets `findSub`/findall-style scans skip
over `a` compositionally. -/

def CleanBefore (pat a b : Str) : Prop :=
  ∀ j, j < a.length → pat.isPrefixOf (a.drop j ++ b) = false

/-- Decidable sufficient condition for `CleanBefore pat a b` for every `b`:
every position of `a` has a character mismatch with `pat` inside `a`. -/
def cbCheck (pat a : Str) : Bool :=
  (List.range a.length).all (fun j => (pat.zip (a.drop j)).any (fun q => q.1 != q.2))

/-! ## Generic lemmas about the string-search helpers -/

theorem prefixOf_append {pat a : Str} (b : Str) (h : pat.isPrefixOf a) :
    pat.isPrefixOf (a ++ b) := by
  rw [List.isPrefixOf_iff_prefix] at h ⊢
  exact h.trans (List.prefix_append a b)

theorem dropAppendOfLe : ∀ {i : Nat} {a : Str} (b : Str), i ≤ a.length →
    (a ++ b).drop i = a.drop i ++ b
  | 0, a, b, _ => rfl
  | i + 1, c :: a, b, h => by
      simpa using dropAppendOfLe (i := i) (a := a) b (Nat.le_of_succ_le_succ h)
  | _ + 1, [], _, h => by simp at h

theorem dropAppendOfGe {i : Nat} {a : Str} (b : Str) (h : a.length ≤ i) :
    (a ++ b).drop i = b.drop (i - a.length) := by
  induction a generalizing i with
  | nil => simp
  | cons c a ih =>
    cases i with
    | zero => simp at h
    | succ j =>
      simp only [List.cons_append, List.drop_succ_cons]
      rw [ih (Nat.le_of_succ_le_succ h)]
      simp [Nat.succ_sub_succ]

theorem occursIn_iff_exists {s pat : Str} :
    occursIn s pat = true ↔ ∃ i, pat.isPrefixOf (s.drop i) := by
  induction s with
  | nil =>
    rw [occursIn]
    cases hp : pat.isPrefixOf ([] : Str) <;> simp [hp]
  | cons c t ih =>
    rw [occursIn]
    cases hp : pat.isPrefixOf (c :: t) with
    | true =>
      constructor
      · intro _
        exact ⟨0, by simpa using hp⟩
      · intro _
        simp
    | false =>
      simp only [Bool.false_eq_true, if_false, ih]
      constructor
      · rintro ⟨i, hi⟩
        exact ⟨i + 1, by simpa using hi⟩
      · rintro ⟨i, hi⟩
        match i, hi with
        | 0, hi =>
          rw [List.drop_zero, hp] at hi
          cases hi
        | j + 1, hi => exact ⟨j, by simpa using hi⟩

theorem occursIn_append_left {a pat : Str} (b : Str) (h : occursIn a pat = true) :
    occursIn (a ++ b) pat = true := by
  rw [occursIn_iff_exists] at h ⊢
  obtain ⟨i, hi⟩ := h
  by_cases hle : i ≤ a.length
  · exact ⟨i, by rw [dropAppendOfLe b hle]; exact prefixOf_append b hi⟩
  · have hdrop : a.drop i = [] := List.drop_eq_nil_of_le (Nat.le_of_not_le hle)
    rw [hdrop] at hi
    have hnil : pat = [] := by simpa using hi
    refine ⟨a.length, ?_⟩
    rw [dropAppendOfLe b (Nat.le_refl _), List.drop_length, hnil]
    simp

theorem occursIn_append_right {b pat : Str} (a : Str) (h : occursIn b pat = true) :
    occursIn (a ++ b) pat = true := by
  rw [occursIn_iff_exists] at h ⊢
  obtain ⟨i, hi⟩ := h
  refine ⟨a.length + i, ?_⟩
  rw [dropAppendOfGe b (Nat.le_add_right _ _)]
  simpa using hi

theorem occursIn_drop_mono {s pat : Str} (n : Nat) (h : occursIn (s.drop n) pat = true) :
    occursIn s pat = true := by
  rw [occursIn_iff_exists] at h ⊢
  obtain ⟨i, hi⟩ := h
  refine ⟨n + i, ?_⟩
  have h2 : (s.drop n).drop i = s.drop (n + i) := by
    rw [List.drop_drop, Nat.add_comm]
  rwa [h2] at hi

/-- An occurrence of a pattern starting with `'<'` in `a ++ b`, where `a` is
all whitespace, must lie entirely inside `b`. -/
theorem occursIn_of_space_prefix {a b pat : Str} (hpat : ∃ p, pat = '<' :: p)
    (hsp : ∀ c ∈ a, isPySpace c = true) (h : occursIn (a ++ b) pat = true) :
    occursIn b pat = true := by
  rw [occursIn_iff_exists] at h
  obtain ⟨i, hi⟩ := h
  obtain ⟨p, rfl⟩ := hpat
  by_cases hlt : i < a.length
  · exfalso
    rw [dropAppendOfLe b (Nat.le_of_lt hlt)] at hi
    have hne : a.drop i ≠ [] := by
      intro hnil
      have := List.drop_eq_nil_iff.mp hnil
      omega
    obtain ⟨c, t, hct⟩ := List.exists_cons_of_ne_nil hne
    rw [hct] at hi
    simp only [List.cons_append, List.isPrefixOf_cons₂, Bool.and_eq_true, beq_iff_eq] at hi
    have hc : c ∈ a := List.drop_subset i a (hct ▸ List.mem_cons_self c t)
    have := hsp c hc
    rw [← hi.1] at this
    simp [isPySpace] at this
  · rw [occursIn_iff_exists]
    refine ⟨i - a.length, ?_⟩
    rwa [dropAppendOfGe b (Nat.le_of_not_lt hlt)] at hi

theorem findSub_of_prefixOf {s pat : Str} (h : pat.isPrefixOf s = true) :
    findSub s pat = some 0 := by
  rw [findSub.eq_def, if_pos h]

theorem findSub_cons_of_not {s pat : Str} {c : Char}
    (h : pat.isPrefixOf (c :: s) = false) :
    findSub (c :: s) pat = (findSub s pat).map (· + 1) := by
  rw [findSub.eq_def]
  simp [h]

theorem findSub_eq_none_iff {s pat : Str} :
    findSub s pat = none ↔ occursIn s pat = false := by
  induction s with
  | nil =>
    rw [findSub.eq_def, occursIn]
    cases hp : pat.isPrefixOf ([] : Str) <;> simp [hp]
  | cons c t ih =>
    rw [findSub.eq_def, occursIn]
    cases hp : pat.isPrefixOf (c :: t) <;> simp [hp, ih]

theorem findSub_some_prefix {s pat : Str} {i : Nat} (h : findSub s pat = some i) :
    pat.isPrefixOf (s.drop i) = true := by
  induction s generalizing i with
  | nil =>
    rw [findSub.eq_def] at h
    cases hp : pat.isPrefixOf ([] : Str) <;> simp [hp] at h
    subst h
    simpa using hp
  | cons c t ih =>
    rw [findSub.eq_def] at h
    cases hp : pat.isPrefixOf (c :: t) <;> simp [hp] at h
    · obtain ⟨j, hj, rfl⟩ := h
      simpa using ih hj
    · subst h
      simpa using hp

theorem findSub_bound {s pat : Str} {i : Nat} (h : findSub s pat = some i) :
    i + pat.length ≤ s.length := by
  induction s generalizing i with
  | nil =>
    rw [findSub.eq_def] at h
    cases hp : pat.isPrefixOf ([] : Str)
    · simp [hp] at h
    · simp [hp] at h
      subst h
      have hpe : pat = [] := by simpa using hp
      simp [hpe]
  | cons c t ih =>
    rw [findSub.eq_def] at h
    cases hp : pat.isPrefixOf (c :: t)
    · simp [hp] at h
      obtain ⟨j, hj, rfl⟩ := h
      have hb := ih hj
      simp only [List.length_cons]
      omega
    · simp [hp] at h
      subst h
      have hle := List.IsPrefix.length_le (List.isPrefixOf_iff_prefix.mp hp)
      simpa using hle

theorem findSub_decomp {s pat : Str} {i : Nat} (h : findSub s pat = some i) :
    s.take i ++ pat ++ s.drop (i + pat.length) = s := by
  have hp := findSub_some_prefix h
  rw [List.isPrefixOf_iff_prefix] at hp
  obtain ⟨t, ht⟩ := hp
  have ht2 : t = s.drop (i + pat.length) := by
    have : (pat ++ t).drop pat.length = (s.drop i).drop pat.length := by rw [ht]
    rw [List.drop_left, List.drop_drop] at this
    rw [this, Nat.add_comm]
  calc s.take i ++ pat ++ s.drop (i + pat.length)
      = s.take i ++ (pat ++ t) := by rw [← ht2, List.append_assoc]
    _ = s.take i ++ s.drop i := by rw [ht]
    _ = s := List.take_append_drop i s

/-! ## Leftmost-match scan framework (lemmas) -/

theorem cleanBefore_append {pat x y b : Str} (hx : CleanBefore pat x (y ++ b))
    (hy : CleanBefore pat y b) : CleanBefore pat (x ++ y) b := by
  intro j hj
  by_cases hlt : j < x.length
  · have h1 := hx j hlt
    rw [dropAppendOfLe y (Nat.le_of_lt hlt), List.append_assoc]
    exact h1
  · have hge : x.length ≤ j := Nat.le_of_not_lt hlt
    rw [List.length_append] at hj
    have h2 := hy (j - x.length) (by omega)
    rw [dropAppendOfGe y hge]
    exact h2

theorem findSub_append_skip {pat a b : Str} (h : CleanBefore pat a b) :
    findSub (a ++ b) pat = (findSub b pat).map (· + a.length) := by
  induction a with
  | nil => simp
  | cons c t ih =>
    have h0 : pat.isPrefixOf (c :: (t ++ b)) = false := by
      have := h 0 (by simp)
      simpa using this
    rw [List.cons_append, findSub_cons_of_not h0]
    have ht : CleanBefore pat t b := by
      intro j hj
      have := h (j + 1) (by simp; omega)
      simpa using this
    rw [ih ht]
    cases findSub b pat <;> simp
    omega

theorem not_prefixOf_of_mismatch {pat a : Str} (b : Str)
    (h : (pat.zip a).any (fun q => q.1 != q.2) = true) :
    pat.isPrefixOf (a ++ b) = false := by
  induction pat generalizing a b with
  | nil => simp at h
  | cons p ps ih =>
    cases a with
    | nil => simp at h
    | cons x xs =>
      simp only [List.zip_cons_cons, List.any_cons, Bool.or_eq_true, bne_iff_ne, ne_eq,
        decide_eq_true_eq] at h
      rw [List.cons_append, List.isPrefixOf_cons₂]
      rcases h with hne | hrest
      · simp [hne]
      · rw [ih (a := xs) b hrest]
        simp

theorem cleanBefore_of_cbCheck {pat a : Str} (h : cbCheck pat a = true) (b : Str) :
    CleanBefore pat a b := by
  intro j hj
  have hall := List.all_eq_true.mp h j (List.mem_range.mpr hj)
  exact not_prefixOf_of_mismatch b (by simpa using hall)

/-! ## Claims C9 and C10: the reasoning-tag helpers -/

theorem take_sub_dropWhile (p : Char → Bool) (x : Str) :
    x.take (x.length - (x.dropWhile p).length) = x.takeWhile p := by
  have h1 : x.takeWhile p ++ x.dropWhile p = x := List.takeWhile_append_dropWhile p x
  have h2 : (x.takeWhile p).length + (x.dropWhile p).length = x.length := by
    conv_rhs => rw [← h1]
    rw [List.length_append]
  have h3 : (x.takeWhile p ++ x.dropWhile p).take (x.length - (x.dropWhile p).length)
      = x.takeWhile p := List.take_left' (by omega)
  rwa [h1] at h3

theorem dropWhile_append_of_all {p : Char → Bool} {a : Str} (b : Str)
    (hsp : ∀ c ∈ a, p c = true) :
    (a ++ b).dropWhile p = b.dropWhile p := by
  induction a with
  | nil => rfl
  | cons c t ih =>
    rw [List.cons_append, List.dropWhile_cons_of_pos (hsp c (by simp))]
    exact ih (fun d hd => hsp d (by simp [hd]))

/-- C9 — confirmed.  `normalize(normalize(x)) == normalize(x)`: the
reasoning-tag normalizer `ensure_think_wrapped` is idempotent for every
string `x`. -/
theorem ensure_think_wrapped_idem (x : Str) :
    ensure_think_wrapped (ensure_think_wrapped x) = ensure_think_wrapped x := by
  by_cases h1 : (x.isEmpty || !occursIn x closeThink) = true
  · have hfx : ensure_think_wrapped x = x := by
      rw [ensure_think_wrapped, if_pos h1]
    rw [hfx]
    exact hfx
  · have h1f : (x.isEmpty || !occursIn x closeThink) = false :=
      Bool.eq_false_iff.mpr h1
    have hocc : occursIn x closeThink = true := by
      rcases Bool.or_eq_false_iff.mp h1f with ⟨-, hb⟩
      simpa using hb
    by_cases h2 : openThink.isPrefixOf (pyLstrip x) = true
    · have hfx : ensure_think_wrapped x = x := by
        rw [ensure_think_wrapped, if_neg (by simp [h1f]), if_pos h2]
      rw [hfx]
      exact hfx
    · have h2f : openThink.isPrefixOf (pyLstrip x) = false :=
        Bool.eq_false_iff.mpr h2
      have hfx : ensure_think_wrapped x =
          x.take (x.length - (pyLstrip x).length) ++ openThink ++ '\n' :: pyLstrip x := by
        rw [ensure_think_wrapped, if_neg (by simp [h1f]), if_neg (by simp [h2f])]
      have hpre : x.take (x.length - (pyLstrip x).length) = x.takeWhile isPySpace :=
        take_sub_dropWhile isPySpace x
      have hsp : ∀ c ∈ x.takeWhile isPySpace, isPySpace c = true :=
        fun c hc => List.mem_takeWhile_imp hc
      -- the closing marker occurs in the stripped tail
      have hoccs : occursIn (pyLstrip x) closeThink = true := by
        refine occursIn_of_space_prefix ⟨lit "/think>", by decide⟩ hsp ?_
        show occursIn (x.takeWhile isPySpace ++ x.dropWhile isPySpace) closeThink = true
        rw [List.takeWhile_append_dropWhile]
        exact hocc
      -- shape of the rewritten text
      have hshape : ensure_think_wrapped x =
          x.takeWhile isPySpace ++ ('<' :: (lit "think>" ++ '\n' :: pyLstrip x)) := by
        rw [hfx, hpre, List.append_assoc, show openThink = '<' :: lit "think>" by decide]
        simp
      have hlstrip : pyLstrip (ensure_think_wrapped x) = openThink ++ '\n' :: pyLstrip x := by
        rw [hshape, pyLstrip, dropWhile_append_of_all _ hsp,
          List.dropWhile_cons_of_neg (by decide)]
        rw [show openThink = '<' :: lit "think>" by decide]
        simp
      have hne : (ensure_think_wrapped x).isEmpty = false := by
        rw [hshape]
        cases hxs : x.takeWhile isPySpace <;> simp [List.isEmpty]
      have hocc2 : occursIn (ensure_think_wrapped x) closeThink = true := by
        rw [hshape]
        refine occursIn_append_right _ ?_
        rw [show ('<' :: (lit "think>" ++ '\n' :: pyLstrip x)) =
          ('<' :: lit "think>" ++ ['\n']) ++ pyLstrip x by simp]
        exact occursIn_append_right _ hoccs
      have hp2 : openThink.isPrefixOf (pyLstrip (ensure_think_wrapped x)) = true := by
        rw [hlstrip]
        exact prefixOf_append _ (by simp [List.isPrefixOf_iff_prefix])
      rw [ensure_think_wrapped, if_neg (by simp [hne, hocc2]), if_pos hp2]

/-- C10 — the unterminated-reasoning claim, amended: if `x` contains
`<think>` (first occurrence at index `i`) and contains no `</think>`
anywhere, then `split_think` classifies everything after that first
opening marker as reasoning and everything before it as visible, and no
character outside the marker itself is dropped. -/
theorem split_think_unterminated (x : Str) (i : Nat)
    (hno : occursIn x closeThink = false)
    (hfind : findSub x openThink = some i) :
    split_think x = (x.drop (i + 7), x.take i) ∧
      x.take i ++ openThink ++ x.drop (i + 7) = x := by
  have hxne : x ≠ [] := by
    rintro rfl
    rw [show findSub [] openThink = none by decide] at hfind
    cases hfind
  have hcnone : findSub x closeThink = none := findSub_eq_none_iff.mpr hno
  have hbound := findSub_bound hfind
  rw [show openThink.length = 7 by decide] at hbound
  have hlt : i < x.length := by omega
  have hdropno : occursIn (x.drop (i + 7)) closeThink = false := by
    cases hd : occursIn (x.drop (i + 7)) closeThink
    · rfl
    · rw [occursIn_drop_mono _ hd] at hno
      cases hno
  have hdnone : findSub (x.drop (i + openThink.length)) closeThink = none := by
    rw [show openThink.length = 7 by decide]
    exact findSub_eq_none_iff.mpr hdropno
  constructor
  · obtain ⟨n, hn⟩ : ∃ n, x.length = n + 1 := by
      cases hx : x.length with
      | zero => exact absurd (List.eq_nil_of_length_eq_zero hx) hxne
      | succ n => exact ⟨n, rfl⟩
    rw [split_think, if_neg hxne, hn, split_think_loop]
    rw [if_neg hxne]
    simp only [hfind, hcnone, hdnone]
    rw [if_pos hlt]
    simp only [show openThink.length = 7 by decide]
    by_cases hi0 : 0 < i
    · simp [hi0]
    · have : i = 0 := by omega
      subst this
      simp
  · have := findSub_decomp hfind
    rw [show openThink.length = 7 by decide] at this
    exact this

/-- Witness for `split_think_unterminated` at the concrete input
`"pre<think>tail"` (first `<think>` at index 3, no `</think>`). -/
theorem split_think_unterminated_wit :
    split_think (lit "pre<think>tail") =
      ((lit "pre<think>tail").drop (3 + 7), (lit "pre<think>tail").take 3) ∧
    (lit "pre<think>tail").take 3 ++ openThink ++ (lit "pre<think>tail").drop (3 + 7) =
      lit "pre<think>tail" :=
  split_think_unterminated (lit "pre<think>tail") 3 (by decide) (by decide)

/-- C10 counterexample: in `"<think>a</think>b<think>c"` the occurrence of
`<think>` at index 17 has no subsequent `</think>`, yet `split_think` does
not classify everything before that marker as visible: it returns
`("ac", "b")`, not `("c", "<think>a</think>b")` — the text before the
dangling marker contains an earlier reasoning span. -/
theorem split_think_unterminated_cex :
    openThink.isPrefixOf ((lit "<think>a</think>b<think>c").drop 17) = true ∧
    occursIn ((lit "<think>a</think>b<think>c").drop (17 + 7)) closeThink = false ∧
    split_think (lit "<think>a</think>b<think>c") = (lit "ac", lit "b") ∧
    split_think (lit "<think>a</think>b<think>c") ≠
      ((lit "<think>a</think>b<think>c").drop (17 + 7),
       (lit "<think>a</think>b<think>c").take 17) := by
  decide

/-! ## Claim C5: decoder quick-reject and fail-open -/

/-- C5 — confirmed.  For every input and optional schema,
`parse_tool_calls` returns (it is total; the Python `try`/`except`
fail-open is subsumed): if the start marker is absent the input is
returned unchanged with `tools_called=false`; whenever
`tools_called=false` the call list is empty and the content is the input
unchanged; whenever `tools_called=true` there is at least one call and
the content is the input with all complete call-blocks stripped and
whitespace-trimmed, or `None` if nothing remains. -/
theorem parse_tool_calls_fail_open (s : Str) (tools : Option (List ToolDef)) :
    (occursIn s toolCallStartTok = false →
      parse_tool_calls s tools = ⟨false, [], some s⟩) ∧
    ((parse_tool_calls s tools).tools_called = false →
      (parse_tool_calls s tools).tool_calls = [] ∧
      (parse_tool_calls s tools).content = some s) ∧
    ((parse_tool_calls s tools).tools_called = true →
      (parse_tool_calls s tools).tool_calls ≠ [] ∧
      (parse_tool_calls s tools).content =
        (if pyStrip (subToolCallBlocks s) = [] then Option.none
         else some (pyStrip (subToolCallBlocks s)))) := by
  cases ho : occursIn s toolCallStartTok with
  | false =>
    rw [parse_tool_calls, ho]
    simp
  | true =>
    rw [parse_tool_calls, ho]
    by_cases htc : ((toolCallBlocks s).flatMap
      (fun block => (invokeFindall block).filterMap (fun inv => parseInvoke inv tools))) = []
    · simp [htc]
    · simp [htc]

/-- Witness for `parse_tool_calls_fail_open`: the Scenario-B call block,
which decodes to one `get_weather` call with no remaining content. -/
theorem parse_tool_calls_fail_open_wit :
    (parse_tool_calls
        (lit "<minimax:tool_call><invoke name=\"get_weather\"><parameter name=\"location\">Paris</parameter></invoke></minimax:tool_call>")
        Option.none).tool_calls ≠ [] ∧
    (parse_tool_calls
        (lit "<minimax:tool_call><invoke name=\"get_weather\"><parameter name=\"location\">Paris</parameter></invoke></minimax:tool_call>")
        Option.none).tool_calls =
      [⟨lit "get_weather", lit "\x7b\"location\": \"Paris\"\x7d"⟩] ∧
    (parse_tool_calls (lit "plain text") Option.none) = ⟨false, [], some (lit "plain text")⟩ :=
  ⟨((parse_tool_calls_fail_open
      (lit "<minimax:tool_call><invoke name=\"get_weather\"><parameter name=\"location\">Paris</parameter></invoke></minimax:tool_call>")
      Option.none).2.2 (by decide)).1,
   by decide,
   (parse_tool_calls_fail_open (lit "plain text") Option.none).1 (by decide)⟩

/-! ## Claim C7: type coercion (code bug in the string branch) -/

/-- C7 — the repository's own unit test
(`src/tests/unit/test_tools.py::test_parse_tool_calls_unescapes_newlines`)
requires the string branch to decode backslash escapes
(`"SELECT \\n  id"` must become `"SELECT \n  id"`), but
`convert_param_value` returns string-typed values verbatim: at the
test's own input the escape sequence survives undecoded. -/
theorem convert_param_value_string_no_unescape :
    convert_param_value (lit "SELECT \\n  id as application_id") (lit "string") =
      .str (lit "SELECT \\n  id as application_id") ∧
    lit "SELECT \\n  id as application_id" ≠ lit "SELECT \n  id as application_id" := by
  exact ⟨rfl, by decide⟩

/-! ## Claim C6: encoder/decoder round-trip -/

/-- C6 counterexample: the single call `f(a := "x</parameter>y")` has a
JSON-serialisable string mapping as arguments, yet decode(encode(·))
truncates the value at the embedded close tag: the decoded argument
JSON is `{"a": "x"}` and the trimmed values differ. -/
theorem roundtrip_cex :
    (parse_tool_calls
        ((tool_calls_to_minimax_xml
          [⟨some (lit "f"), Option.none, .dict [(lit "a", .str (lit "x</parameter>y"))]⟩]).getD [])
        Option.none).tool_calls =
      [⟨lit "f", lit "\x7b\"a\": \"x\"\x7d"⟩] ∧
    pyStrip (lit "x") ≠ pyStrip (lit "x</parameter>y") := by
  constructor
  · rfl
  · decide

/-! ## Streaming parser lemmas (claims C1-C4) -/

theorem maybe_flush_fields {p : SParser} {f : Bool} {p2 : SParser} {o : Option Str}
    (h : maybe_flush p f = .ok (p2, o)) :
    p2.accumulated = p.accumulated ∧ p2.tools_sent = p.tools_sent ∧
    p2.emitted_content = p.emitted_content ∧ p2.tools = p.tools ∧
    p2.cursor = p.cursor ∧ p2.reasoning_buffer_limit = p.reasoning_buffer_limit := by
  unfold maybe_flush at h
  split at h
  · simp only [Except.ok.injEq, Prod.mk.injEq] at h
    obtain ⟨h1, -⟩ := h
    subst h1
    exact ⟨rfl, rfl, rfl, rfl, rfl, rfl⟩
  · split at h
    · split at h
      · split at h
        · cases h
        · simp only [Except.ok.injEq, Prod.mk.injEq] at h
          obtain ⟨h1, -⟩ := h
          subst h1
          exact ⟨rfl, rfl, rfl, rfl, rfl, rfl⟩
      · split at h
        · split at h
          · split at h
            · cases h
            · simp only [Except.ok.injEq, Prod.mk.injEq] at h
              obtain ⟨h1, -⟩ := h
              subst h1
              exact ⟨rfl, rfl, rfl, rfl, rfl, rfl⟩
          · simp only [Except.ok.injEq, Prod.mk.injEq] at h
            obtain ⟨h1, -⟩ := h
            subst h1
            exact ⟨rfl, rfl, rfl, rfl, rfl, rfl⟩
        · simp only [Except.ok.injEq, Prod.mk.injEq] at h
          obtain ⟨h1, -⟩ := h
          subst h1
          exact ⟨rfl, rfl, rfl, rfl, rfl, rfl⟩
    · simp only [Except.ok.injEq, Prod.mk.injEq] at h
      obtain ⟨h1, -⟩ := h
      subst h1
      exact ⟨rfl, rfl, rfl, rfl, rfl, rfl⟩

theorem processContentPhase_fields {st p2 : SParser} {ev : Option Event}
    (h : processContentPhase st = .ok (p2, ev)) :
    p2.accumulated = st.accumulated ∧ p2.tools_sent = st.tools_sent ∧
    (∀ tc oc, ev ≠ some (.toolCalls tc oc)) := by
  unfold processContentPhase at h
  split at h
  · -- not inside an unfinished call-block: flush
    split at h
    · cases h
    · rename_i fl hfl
      have hf := maybe_flush_fields (show maybe_flush st false = .ok (fl.1, fl.2) by rw [hfl])
      split at h
      · split at h
        · simp only [Except.ok.injEq, Prod.mk.injEq] at h
          obtain ⟨h1, h2⟩ := h
          subst h1
          subst h2
          exact ⟨hf.1, hf.2.1, by intro tc oc hne; cases hne⟩
        · simp only [Except.ok.injEq, Prod.mk.injEq] at h
          obtain ⟨h1, h2⟩ := h
          subst h1
          subst h2
          exact ⟨hf.1, hf.2.1, by intro tc oc hne; cases hne⟩
      · simp only [Except.ok.injEq, Prod.mk.injEq] at h
        obtain ⟨h1, h2⟩ := h
        subst h1
        subst h2
        exact ⟨hf.1, hf.2.1, by intro tc oc hne; cases hne⟩
  · -- inside an unfinished call-block: no output
    simp only [Except.ok.injEq, Prod.mk.injEq] at h
    obtain ⟨h1, h2⟩ := h
    subst h1
    subst h2
    exact ⟨rfl, rfl, by intro tc oc hne; cases hne⟩

theorem ingestChunk_accumulated (p : SParser) (c : Str) :
    (ingestChunk p c).accumulated = p.accumulated ++ c := by
  simp only [ingestChunk]
  split <;> rfl

theorem ingestChunk_tools_sent (p : SParser) (c : Str) :
    (ingestChunk p c).tools_sent = p.tools_sent := by
  simp only [ingestChunk]
  split <;> rfl

theorem emitToolCallsOk_spec (result : ParseResult) (fl : SParser × Option Str) :
    (emitToolCallsOk result fl).1.accumulated = fl.1.accumulated ∧
    (emitToolCallsOk result fl).1.tools_sent = fl.1.tools_sent ∧
    ∃ oc, (emitToolCallsOk result fl).2 = some (.toolCalls result.tool_calls oc) := by
  unfold emitToolCallsOk
  split
  · exact ⟨rfl, rfl, ⟨_, rfl⟩⟩
  · split
    · exact ⟨rfl, rfl, ⟨_, rfl⟩⟩
    · exact ⟨rfl, rfl, ⟨_, rfl⟩⟩

theorem emitToolCalls_spec {st1 p2 : SParser} {ev : Option Event}
    (h : emitToolCalls st1 = .ok (p2, ev)) :
    p2.accumulated = st1.accumulated ∧
    (p2.tools_sent = st1.tools_sent ∨ p2.tools_sent = true) ∧
    (∀ tc oc, ev = some (.toolCalls tc oc) → p2.tools_sent = true) := by
  unfold emitToolCalls at h
  split at h
  · split at h
    · cases h
    · rename_i fl hfl
      have hmf := maybe_flush_fields
        (show maybe_flush { st1 with tools_sent := true } true = .ok (fl.1, fl.2) by rw [hfl])
      have hok := emitToolCallsOk_spec (parse_tool_calls st1.accumulated st1.tools) fl
      simp only [Except.ok.injEq] at h
      have hp2 : p2 = (emitToolCallsOk (parse_tool_calls st1.accumulated st1.tools) fl).1 := by
        rw [h]
      have hsent : p2.tools_sent = true := by
        rw [hp2, hok.2.1, hmf.2.1]
      refine ⟨?_, Or.inr hsent, fun tc oc _ => hsent⟩
      rw [hp2, hok.1, hmf.1]
  · have hf := processContentPhase_fields h
    exact ⟨hf.1, Or.inl hf.2.1, fun tc oc hev => absurd hev (hf.2.2 tc oc)⟩

theorem process_chunk_spec {p : SParser} {c : Str} {p2 : SParser} {ev : Option Event}
    (h : process_chunk p c = .ok (p2, ev)) :
    p2.accumulated = p.accumulated ++ c ∧
    (p2.tools_sent = true →
      (p.tools_sent = true ∨ occursIn (p.accumulated ++ c) toolCallEndTok = true)) ∧
    (p.tools_sent = true → p2.tools_sent = true ∧ ∀ tc oc, ev ≠ some (.toolCalls tc oc)) ∧
    (∀ tc oc, ev = some (.toolCalls tc oc) → p.tools_sent = false ∧ p2.tools_sent = true) := by
  unfold process_chunk at h
  split at h
  · rename_i hcond
    simp only [Bool.and_eq_true, Bool.not_eq_true'] at hcond
    have hts : p.tools_sent = false := by
      rw [← ingestChunk_tools_sent p c]
      exact hcond.1
    split at h
    · rename_i hendocc
      have hspec := emitToolCalls_spec h
      rw [ingestChunk_accumulated] at hspec
      rw [ingestChunk_accumulated] at hendocc
      refine ⟨hspec.1, fun _ => Or.inr hendocc, ?_, ?_⟩
      · intro hp
        rw [hp] at hts
        cases hts
      · intro tc oc hev
        exact ⟨hts, hspec.2.2 tc oc hev⟩
    · simp only [Except.ok.injEq, Prod.mk.injEq] at h
      obtain ⟨h1, h2⟩ := h
      subst h1
      subst h2
      refine ⟨ingestChunk_accumulated p c, ?_, ?_, ?_⟩
      · intro hp
        rw [ingestChunk_tools_sent] at hp
        exact Or.inl hp
      · intro hp
        rw [hp] at hts
        cases hts
      · intro tc oc hev
        cases hev
  · have hf := processContentPhase_fields h
    rw [ingestChunk_accumulated] at hf
    have hsent : p2.tools_sent = p.tools_sent := by
      rw [hf.2.1, ingestChunk_tools_sent]
    refine ⟨hf.1, ?_, ?_, ?_⟩
    · intro hp
      rw [hsent] at hp
      exact Or.inl hp
    · intro hp
      exact ⟨by rw [hsent, hp], hf.2.2⟩
    · intro tc oc hev
      exact absurd hev (hf.2.2 tc oc)

theorem runChunks_invariant : ∀ (cs : List Str) (p0 : SParser) {evs : List Event} {p : SParser},
    runChunks p0 cs = (evs, some p) →
    p.accumulated = p0.accumulated ++ cs.flatten ∧
    (p.tools_sent = true →
      (p0.tools_sent = true ∨ occursIn (p0.accumulated ++ cs.flatten) toolCallEndTok = true)) := by
  intro cs
  induction cs with
  | nil =>
    intro p0 evs p h
    rw [runChunks] at h
    simp only [Prod.mk.injEq, Option.some.injEq] at h
    obtain ⟨-, h2⟩ := h
    subst h2
    exact ⟨by simp, fun hp => Or.inl hp⟩
  | cons c cs ih =>
    intro p0 evs p h
    rw [runChunks] at h
    split at h
    · simp only [Prod.mk.injEq] at h
      cases h.2
    · rename_i pe hpe
      have hstep := process_chunk_spec (by rw [hpe] :
        process_chunk p0 c = .ok (pe.1, pe.2))
      simp only [Prod.mk.injEq] at h
      obtain ⟨-, h2⟩ := h
      have hrest : runChunks pe.1 cs = ((runChunks pe.1 cs).1, some p) := by
        rw [← h2]
      have hih := ih pe.1 hrest
      constructor
      · rw [hih.1, hstep.1, List.flatten_cons, List.append_assoc]
      · intro hps
        rcases hih.2 hps with hs1 | hs2
        · rcases hstep.2.1 hs1 with ha | hb
          · exact Or.inl ha
          · refine Or.inr ?_
            rw [List.flatten_cons, ← List.append_assoc]
            exact occursIn_append_left _ hb
        · refine Or.inr ?_
          rw [hstep.1] at hs2
          rw [List.flatten_cons, ← List.append_assoc]
          exact hs2

/-- When a call-block start marker has arrived but its end marker has
not, and the parser has not already sent a batch, `process_chunk`
buffers and returns no event (the Tool-Call-Pending suspension branch,
src/parsers/streaming.py, lines 252-254). -/
theorem process_chunk_pending {p : SParser} {c : Str}
    (hts : p.tools_sent = false)
    (hstart : occursIn (p.accumulated ++ c) toolCallStartTok = true)
    (hend : occursIn (p.accumulated ++ c) toolCallEndTok = false) :
    process_chunk p c = .ok (ingestChunk p c, Option.none) := by
  unfold process_chunk
  have h1 : (!(ingestChunk p c).tools_sent &&
      hasToolCallsTok (ingestChunk p c).accumulated) = true := by
    rw [ingestChunk_tools_sent, ingestChunk_accumulated, hts]
    simp [hasToolCallsTok, hstart]
  rw [if_pos h1]
  have h2 : occursIn (ingestChunk p c).accumulated toolCallEndTok = false := by
    rw [ingestChunk_accumulated]
    exact hend
  rw [if_neg (by simp [h2])]

/-- C1 — corrected (`has_tool_calls` modelled from the spec; the
refuted conjunct is `no_partial_tool_call_leakage_cex`).  Amended
no-partial-leakage: for any chunk sequence on a fresh parser, if after
the next chunk the call-block start marker has appeared in the
accumulated text while the end marker has not, that `process_chunk` call
only buffers and returns no event.  The claim's further conjunct — that
no event emitted before the end marker arrives contains any substring of
the call-block — is false of the code: once the parser is in
pass-through mode, a start marker split across chunks is streamed
verbatim before it completes. -/
theorem no_partial_tool_call_leakage (pre : List Str) (c : Str) (evs : List Event) (p : SParser)
    (hrun : runChunks freshParser pre = (evs, some p))
    (hstart : occursIn (pre.flatten ++ c) toolCallStartTok = true)
    (hend : occursIn (pre.flatten ++ c) toolCallEndTok = false) :
    process_chunk p c = .ok (ingestChunk p c, Option.none) := by
  have hinv := runChunks_invariant pre freshParser hrun
  have hacc : p.accumulated = pre.flatten := by
    simpa [freshParser] using hinv.1
  have hts : p.tools_sent = false := by
    cases hsent : p.tools_sent
    · rfl
    · exfalso
      rcases hinv.2 hsent with h1 | h2
      · simp [freshParser] at h1
      · have h2' : occursIn pre.flatten toolCallEndTok = true := by
          simpa [freshParser] using h2
        have h3 := occursIn_append_left c h2'
        rw [h3] at hend
        cases hend
  exact process_chunk_pending hts (by rwa [hacc]) (by rwa [hacc])

/-- Witness for `no_partial_tool_call_leakage`: after the chunk
`"hello "`, a chunk carrying the start marker and a partial invoke emits
nothing. -/
theorem no_partial_tool_call_leakage_wit :
    process_chunk (bufState (lit "hello ")) (lit "<minimax:tool_call><invoke") =
      .ok (ingestChunk (bufState (lit "hello ")) (lit "<minimax:tool_call><invoke"),
        Option.none) :=
  no_partial_tool_call_leakage [lit "hello "] (lit "<minimax:tool_call><invoke") []
    (bufState (lit "hello ")) (by decide) (by decide) (by decide)

set_option maxRecDepth 100000 in
/-- C1 counterexample: after the 1024-character limit flush puts the
parser in pass-through mode, a chunk ending in a split start marker is
streamed verbatim: the second emitted event carries
`"foo<minimax:tool_"`, which contains the nonempty 14-character prefix
of the call-block start marker, and the next chunk completes the marker
with the end marker still absent — so an event emitted before the end
marker arrives does contain a substring of the call-block, refuting the
claim's second conjunct. -/
theorem no_partial_tool_call_leakage_cex :
    runChunks freshParser
        [List.replicate 1024 'a', lit "foo<minimax:tool_", lit "call><invoke"]
      = ([.content (List.replicate 1024 'a'), .content (lit "foo<minimax:tool_")],
         some { accumulated := List.replicate 1024 'a' ++ lit "foo<minimax:tool_call><invoke",
                cursor := 1053, tools_sent := false, tools := Option.none,
                pending_buffer := lit "call><invoke", ready_to_emit := true,
                emitted_content := true, synthetic_think_close_sent := false,
                reasoning_buffer_limit := 1024 }) ∧
    occursIn (lit "foo<minimax:tool_") (toolCallStartTok.take 14) = true ∧
    (toolCallStartTok.take 14).isPrefixOf toolCallStartTok = true ∧
    ¬ toolCallStartTok.take 14 = [] ∧
    occursIn (List.replicate 1024 'a' ++ lit "foo<minimax:tool_call><invoke")
      toolCallStartTok = true ∧
    occursIn (List.replicate 1024 'a' ++ lit "foo<minimax:tool_call><invoke")
      toolCallEndTok = false :=
  ⟨rfl, by decide, by decide, by decide, by decide, by decide⟩

theorem runChunks_count_sent : ∀ (cs : List Str) (p0 : SParser), p0.tools_sent = true →
    List.countP isToolCallsEvent (runChunks p0 cs).1 = 0 ∧
    (∀ p', (runChunks p0 cs).2 = some p' → p'.tools_sent = true) := by
  intro cs
  induction cs with
  | nil =>
    intro p0 h0
    rw [runChunks]
    refine ⟨by simp, fun p' hp' => ?_⟩
    simp only [Option.some.injEq] at hp'
    rw [← hp']
    exact h0
  | cons c cs ih =>
    intro p0 h0
    rw [runChunks]
    cases hpc : process_chunk p0 c with
    | error e => simp
    | ok pe =>
      have hstep := process_chunk_spec hpc
      have hsent2 := (hstep.2.2.1 h0).1
      have hnotc := (hstep.2.2.1 h0).2
      have hih := ih pe.1 hsent2
      constructor
      · rw [List.countP_append]
        have h1 : List.countP isToolCallsEvent
            (match pe.2 with | some e => [e] | Option.none => []) = 0 := by
          cases hev : pe.2 with
          | none => simp
          | some e =>
            cases e with
            | content d => simp [List.countP, List.countP.go, isToolCallsEvent]
            | toolCalls tc oc => exact absurd hev (hnotc tc oc)
        rw [h1, hih.1]
      · intro p' hp'
        exact hih.2 p' hp'

theorem runChunks_count_le (cs : List Str) (p0 : SParser) :
    List.countP isToolCallsEvent (runChunks p0 cs).1 ≤ 1 := by
  induction cs generalizing p0 with
  | nil => simp [runChunks]
  | cons c cs ih =>
    rw [runChunks]
    cases hpc : process_chunk p0 c with
    | error e => simp
    | ok pe =>
      obtain ⟨pe1, pe2⟩ := pe
      have hstep := process_chunk_spec hpc
      cases pe2 with
      | none => simpa using ih pe1
      | some e =>
        cases e with
        | content d =>
          have := ih pe1
          simpa [List.countP_append, List.countP, List.countP.go, isToolCallsEvent] using this
        | toolCalls tc oc =>
          have hsent := (hstep.2.2.2 tc oc rfl).2
          have h0 := (runChunks_count_sent cs pe1 hsent).1
          simp [List.countP_append, List.countP_cons, isToolCallsEvent, h0]

/-- C2 — confirmed (`has_tool_calls` modelled from the spec).
Exactly-once tool-call emission: across any full turn (chunks then
`flush_pending`), at most one tool-call batch event is emitted; the
flush can only add a content delta, and once `tools_sent` is set no
later call emits another batch. -/
theorem exactly_once_tool_calls (cs : List Str) :
    List.countP isToolCallsEvent (runTurn cs) ≤ 1 := by
  unfold runTurn
  cases h2 : (runChunks freshParser cs).2 with
  | none =>
    simp only [h2]
    exact runChunks_count_le cs freshParser
  | some p =>
    simp only [h2]
    cases hf : flush_pending p with
    | error e => exact runChunks_count_le cs freshParser
    | ok fl =>
      obtain ⟨fl1, fl2⟩ := fl
      cases fl2 with
      | none => exact runChunks_count_le cs freshParser
      | some c =>
        rw [List.countP_append]
        have h1 : List.countP isToolCallsEvent [Event.content c] = 0 := by
          simp [List.countP, List.countP.go, isToolCallsEvent]
        rw [h1]
        simpa using runChunks_count_le cs freshParser

/-- C3 — code bug.  The parser raises: `_maybe_flush_buffer` executes
`content, _ = ensure_think_wrapped(...)`, but src/parsers/reasoning.py
returns a plain string, so the 2-tuple unpack raises ValueError whenever
that line runs — both on a chunk containing `</think>` and on any
complete tool call (the synthetic-close wrap).  The repository's own
tests (`test_parsers.py::test_ensure_think_wrapped_adds_missing_opening`
unpacks a pair, and `test_simple_streaming_parser_preserves_think`
would raise here), so the claim/spec is the intent and the code is a
slip. -/
theorem streaming_raises_on_think_close :
    process_chunk freshParser (lit "Reasoning</think>\ndone") = .error .valueError ∧
    process_chunk freshParser
      (lit "<minimax:tool_call><invoke name=\"f\"><parameter name=\"a\">1</parameter></invoke></minimax:tool_call>") =
      .error .valueError := by
  exact ⟨rfl, rfl⟩

theorem ingest_buf (s c : Str) : ingestChunk (bufState s) c = bufState (s ++ c) := by
  simp only [ingestChunk, bufState]
  rw [List.drop_left]
  by_cases hc : c = []
  · subst hc
    simp
  · simp [hc]

theorem bufStep (s c : Str)
    (hclose : occursIn (s ++ c) closeThink = false)
    (hstart : occursIn (s ++ c) toolCallStartTok = false)
    (hlen : (s ++ c).length < 1024) :
    process_chunk (bufState s) c = .ok (bufState (s ++ c), Option.none) := by
  unfold process_chunk
  rw [ingest_buf]
  have h1 : (!(bufState (s ++ c)).tools_sent &&
      hasToolCallsTok (bufState (s ++ c)).accumulated) = false := by
    simp [bufState, hasToolCallsTok, hstart]
  rw [if_neg (by simp [h1])]
  unfold processContentPhase
  rw [if_pos (by simp [bufState, hstart])]
  have hmf : maybe_flush (bufState (s ++ c)) false = .ok (bufState (s ++ c), Option.none) := by
    unfold maybe_flush
    by_cases hsc : (s ++ c : Str) = []
    · rw [if_pos (by simpa [bufState] using hsc)]
    · rw [if_neg (by simpa [bufState] using hsc)]
      rw [if_pos (by simp [bufState])]
      rw [if_neg (by simp [bufState, hclose])]
      rw [if_neg (by
        simp [bufState]
        simp only [List.length_append] at hlen
        omega)]
  rw [hmf]

theorem bufRun : ∀ (cs : List Str) (s : Str),
    occursIn (s ++ cs.flatten) closeThink = false →
    occursIn (s ++ cs.flatten) toolCallStartTok = false →
    (s ++ cs.flatten).length < 1024 →
    runChunks (bufState s) cs = ([], some (bufState (s ++ cs.flatten))) := by
  intro cs
  induction cs with
  | nil =>
    intro s h1 h2 h3
    simp [runChunks]
  | cons c cs ih =>
    intro s h1 h2 h3
    have hpre : ∀ pat, occursIn (s ++ (c :: cs).flatten) pat = false →
        occursIn (s ++ c) pat = false := by
      intro pat hp
      cases hx : occursIn (s ++ c) pat
      · rfl
      · exfalso
        have hy := occursIn_append_left cs.flatten hx
        rw [List.append_assoc] at hy
        rw [List.flatten_cons] at hp
        rw [hy] at hp
        cases hp
    have hlen1 : (s ++ c).length < 1024 := by
      rw [List.flatten_cons] at h3
      simp only [List.length_append] at h3 ⊢
      omega
    rw [runChunks, bufStep s c (hpre _ h1) (hpre _ h2) hlen1]
    dsimp only
    have hih := ih (s ++ c)
      (by rw [List.append_assoc, ← List.flatten_cons]; exact h1)
      (by rw [List.append_assoc, ← List.flatten_cons]; exact h2)
      (by rw [List.append_assoc, ← List.flatten_cons]; exact h3)
    rw [hih]
    simp [List.flatten_cons, List.append_assoc]

/-- C4 — amended.  Forced buffering while Undetermined: as long as
neither `</think>` nor the call-block start marker has appeared AND the
accumulated text is still shorter than the parser's reasoning buffer
limit (1024 characters), every `process_chunk` call emits nothing and
the parser just buffers.  (The unbounded form of the claim is refuted by
`undetermined_buffering_cex`: at the limit the buffer is emitted.) -/
theorem undetermined_buffering (cs : List Str)
    (hclose : occursIn cs.flatten closeThink = false)
    (hstart : occursIn cs.flatten toolCallStartTok = false)
    (hlen : cs.flatten.length < freshParser.reasoning_buffer_limit) :
    runChunks freshParser cs = ([], some (bufState cs.flatten)) := by
  have h := bufRun cs [] (by simpa using hclose) (by simpa using hstart)
    (by simpa using hlen)
  simpa using h

/-- Witness for `undetermined_buffering`: two marker-free chunks produce
no events at all. -/
theorem undetermined_buffering_wit :
    runChunks freshParser [lit "abc", lit "def"] =
      ([], some (bufState ([lit "abc", lit "def"].flatten))) :=
  undetermined_buffering [lit "abc", lit "def"] (by decide) (by decide) (by decide)

set_option maxRecDepth 40000 in
/-- C4 counterexample: a single 1024-character chunk with no markers at
all reaches `REASONING_BUFFER_LIMIT`, and `process_chunk` emits the
whole buffer as a content event — the parser does not buffer silently
"regardless of how much text has accumulated". -/
theorem undetermined_buffering_cex :
    occursIn (List.replicate 1024 'a') closeThink = false ∧
    occursIn (List.replicate 1024 'a') toolCallStartTok = false ∧
    process_chunk freshParser (List.replicate 1024 'a') =
      .ok ({ accumulated := List.replicate 1024 'a', cursor := 1024, tools_sent := false,
             tools := Option.none, pending_buffer := [], ready_to_emit := true,
             emitted_content := true, synthetic_think_close_sent := false,
             reasoning_buffer_limit := 1024 },
        some (.content (List.replicate 1024 'a'))) := by
  exact ⟨by decide, by decide, rfl⟩

/-! ## Claim C6: infrastructure for the encoder/decoder round-trip -/

theorem takeWhile_append_of_all {p : Char → Bool} {a : Str} (b : Str)
    (h : ∀ c ∈ a, p c = true) :
    (a ++ b).takeWhile p = a ++ b.takeWhile p := by
  induction a with
  | nil => rfl
  | cons c t ih =>
    rw [List.cons_append, List.takeWhile_cons_of_pos (h c (by simp)),
      ih (fun d hd => h d (by simp [hd]))]
    rfl

theorem isPrefixOf_self_append (pat b : Str) : pat.isPrefixOf (pat ++ b) = true := by
  rw [List.isPrefixOf_iff_prefix]
  exact List.prefix_append pat b

theorem findSub_self_append (pat b : Str) : findSub (pat ++ b) pat = some 0 :=
  findSub_of_prefixOf (isPrefixOf_self_append pat b)

theorem occursIn_self_append (pat b : Str) : occursIn (pat ++ b) pat = true := by
  rw [occursIn.eq_def]
  simp [isPrefixOf_self_append pat b]

theorem dropWhile_head_not {p : Char → Bool} : ∀ {l t : Str} {c : Char},
    l.dropWhile p = c :: t → p c = false := by
  intro l
  induction l with
  | nil => intro t c h; cases h
  | cons a l ih =>
    intro t c h
    rw [List.dropWhile_cons] at h
    by_cases hp : p a = true
    · rw [if_pos hp] at h
      exact ih h
    · rw [if_neg hp] at h
      injection h with h1 _
      rw [← h1]
      exact Bool.eq_false_iff.mpr hp

theorem pyRstrip_concat_nl (z : Str) : pyRstrip (z ++ ['\n']) = pyRstrip z := by
  rw [pyRstrip, pyRstrip, List.reverse_append]
  have h1 : (['\n'] : Str).reverse ++ z.reverse = '\n' :: z.reverse := rfl
  rw [h1, List.dropWhile_cons_of_pos (by decide)]

theorem pyStrip_nl_wrap (v : Str) : pyStrip (lit "\n" ++ v ++ lit "\n") = pyStrip v := by
  have h1 : lit "\n" ++ v ++ lit "\n" = '\n' :: (v ++ ['\n']) := by
    rw [List.append_assoc]
    rfl
  rw [h1, pyStrip, pyStrip, pyLstrip, pyLstrip, List.dropWhile_cons_of_pos (by decide),
    List.dropWhile_append]
  by_cases hv : (v.dropWhile isPySpace).isEmpty = true
  · rw [if_pos hv]
    have h2 : (['\n'] : Str).dropWhile isPySpace = [] := by decide
    rw [h2]
    rw [List.isEmpty_iff] at hv
    rw [hv]
  · rw [if_neg hv]
    exact pyRstrip_concat_nl _

theorem pyRstrip_prefix (w : Str) : pyRstrip w <+: w := by
  have h := List.dropWhile_suffix (l := w.reverse) (p := isPySpace)
  have h2 := List.reverse_prefix.mpr h
  rwa [List.reverse_reverse] at h2

theorem pyStrip_head_not_space {v : Str} {c : Char} {t : Str}
    (h : pyStrip v = c :: t) : isPySpace c = false := by
  have hp : pyStrip v <+: pyLstrip v := pyRstrip_prefix _
  rw [h] at hp
  obtain ⟨u, hu⟩ := hp
  have hl : pyLstrip v = c :: (t ++ u) := by
    rw [← hu]
    rfl
  exact dropWhile_head_not (show v.dropWhile isPySpace = c :: (t ++ u) from hl)

theorem pyStrip_last_not_space {v : Str} {c : Char}
    (h : (pyStrip v).getLast? = some c) : isPySpace c = false := by
  rw [pyStrip, pyRstrip, List.getLast?_reverse] at h
  cases hd : ((pyLstrip v).reverse).dropWhile isPySpace with
  | nil => rw [hd] at h; cases h
  | cons a t =>
    rw [hd] at h
    simp only [List.head?_cons, Option.some.injEq] at h
    rw [← h]
    exact dropWhile_head_not hd

theorem trimOneNl_pyStrip (v : Str) : trimOneNl (pyStrip v) = pyStrip v := by
  have hh : ¬ (pyStrip v).head? = some '\n' := by
    intro h
    cases hs : pyStrip v with
    | nil => rw [hs] at h; cases h
    | cons a t =>
      rw [hs] at h
      simp only [List.head?_cons, Option.some.injEq] at h
      have h2 := pyStrip_head_not_space hs
      rw [h] at h2
      exact absurd h2 (by decide)
  have hl : ¬ (pyStrip v).getLast? = some '\n' := by
    intro h
    exact absurd (pyStrip_last_not_space h) (by decide)
  simp only [trimOneNl]
  rw [if_neg hh, if_neg hl]

theorem pyStrip_quoted (n : Str) : pyStrip ('"' :: (n ++ ['"'])) = '"' :: (n ++ ['"']) := by
  rw [pyStrip, pyLstrip, List.dropWhile_cons_of_neg (by decide), pyRstrip]
  have h1 : ('"' :: (n ++ ['"'])).reverse = '"' :: (n.reverse ++ ['"']) := by
    simp [List.reverse_cons, List.reverse_append]
  rw [h1, List.dropWhile_cons_of_neg (by decide), ← h1, List.reverse_reverse]

theorem extract_name_quoted (n : Str) : extract_name ('"' :: (n ++ ['"'])) = n := by
  have hlast : ('"' :: (n ++ ['"'])).getLast? = some '"' := by
    rw [show ('"' :: (n ++ ['"'])) = ('"' :: n) ++ ['"'] from rfl, List.getLast?_concat]
  simp only [extract_name]
  rw [pyStrip_quoted, if_pos (Or.inl ⟨rfl, hlast⟩)]
  simp [List.dropLast_concat]

theorem cleanBefore_no_lt {pat q : Str} (hpat : pat = '<' :: q) {a : Str}
    (ha : ∀ c ∈ a, c ≠ '<') (b : Str) : CleanBefore pat a b := by
  intro j hj
  have hne : a.drop j ≠ [] := by
    intro hnil
    have := List.drop_eq_nil_iff.mp hnil
    omega
  obtain ⟨c, t, hct⟩ := List.exists_cons_of_ne_nil hne
  have hc : c ∈ a := List.drop_subset j a (hct ▸ List.mem_cons_self c t)
  rw [hct, hpat]
  have hm : ((('<' :: q).zip ([c] : Str)).any (fun p => p.1 != p.2)) = true := by
    have hcc : c ≠ '<' := ha c hc
    simp [List.zip, Ne.symm hcc]
  have h2 := not_prefixOf_of_mismatch (t ++ b) hm
  simpa using h2

theorem cleanBefore_value {pat : Str} (v b : Str)
    (hnl : ∀ c ∈ pat, c ≠ '\n')
    (hocc : occursIn v pat = false) : CleanBefore pat v ('\n' :: b) := by
  intro j hj
  cases hp : pat.isPrefixOf (v.drop j ++ '\n' :: b) with
  | false => rfl
  | true =>
    exfalso
    rw [List.isPrefixOf_iff_prefix] at hp
    by_cases hle : pat.length ≤ (v.drop j).length
    · have hpre : pat <+: v.drop j := by
        have h1 := List.prefix_iff_eq_take.mp hp
        rw [List.take_append_of_le_length hle] at h1
        rw [h1]
        exact List.take_prefix _ _
      have h2 : occursIn v pat = true := by
        rw [occursIn_iff_exists]
        exact ⟨j, List.isPrefixOf_iff_prefix.mpr hpre⟩
      rw [h2] at hocc
      cases hocc
    · obtain ⟨u, hu⟩ := hp
      have hnlt : (v.drop j).length < pat.length := Nat.lt_of_not_le hle
      have hget : pat[(v.drop j).length]? = some '\n' := by
        have h1 : (pat ++ u)[(v.drop j).length]? = pat[(v.drop j).length]? :=
          List.getElem?_append_left hnlt
        rw [hu] at h1
        rw [List.getElem?_append_right (Nat.le_refl _)] at h1
        simpa using h1.symm
      have h3 : '\n' ∈ pat := List.getElem?_mem hget
      exact hnl '\n' h3 rfl

theorem findSub_none_of_cleanBefore {pat a : Str} (hpat : pat ≠ [])
    (h : CleanBefore pat a []) : findSub a pat = none := by
  rw [findSub_eq_none_iff]
  cases ho : occursIn a pat with
  | false => rfl
  | true =>
    exfalso
    rw [occursIn_iff_exists] at ho
    obtain ⟨i, hi⟩ := ho
    by_cases hlt : i < a.length
    · have h2 := h i hlt
      rw [List.append_nil] at h2
      rw [h2] at hi
      cases hi
    · have hd : a.drop i = [] := List.drop_eq_nil_iff.mpr (by omega)
      rw [hd] at hi
      cases pat with
      | nil => exact hpat rfl
      | cons p ps => simp [List.isPrefixOf] at hi

theorem nameOk_ne_nil {n : Str} (h : nameOk n = true) : ¬ n = [] := by
  intro hn
  rw [hn] at h
  simp [nameOk] at h

theorem nameOk_no_lt {n : Str} (h : nameOk n = true) : ∀ c ∈ n, c ≠ '<' := by
  intro c hc hceq
  rw [nameOk, Bool.and_eq_true] at h
  have h2 := List.all_eq_true.mp h.2 c hc
  rw [hceq] at h2
  simp at h2

theorem nameOk_no_gt_bne {n : Str} (h : nameOk n = true) : ∀ c ∈ n, (c != '>') = true := by
  intro c hc
  rw [nameOk, Bool.and_eq_true] at h
  have h2 := List.all_eq_true.mp h.2 c hc
  exact (Bool.and_eq_true _ _ ▸ h2).2

theorem valueOk_facts {v : Str} (h : valueOk v = true) :
    occursIn v paramCloseTag = false ∧ occursIn v invokeCloseTag = false ∧
    occursIn v toolCallEndTok = false ∧ ¬ pyLower (pyStrip v) = lit "null" := by
  simp only [valueOk, Bool.and_eq_true, Bool.not_eq_true'] at h
  obtain ⟨⟨⟨h1, h2⟩, h3⟩, h4⟩ := h
  refine ⟨h1, h2, h3, ?_⟩
  intro heq
  rw [heq] at h4
  simp at h4

theorem paramChunk_len_pos (kv : Str × Str) : 1 ≤ (paramChunk kv).length := by
  rw [paramChunk]
  simp only [List.length_append]
  have h18 : (lit "\n<parameter name=\"").length = 18 := by decide
  omega

theorem paramsChunk_len (ps : List (Str × Str)) : ps.length ≤ (paramsChunk ps).length := by
  induction ps with
  | nil => simp [paramsChunk]
  | cons kv t ih =>
    rw [paramsChunk, List.flatMap_cons, List.length_append]
    have h1 := paramChunk_len_pos kv
    rw [paramsChunk] at ih
    simp only [List.length_cons]
    omega

theorem callChunk_len_pos (c : Str × List (Str × Str)) : 1 ≤ (callChunk c).length := by
  rw [callChunk]
  simp only [List.length_append]
  have h15 : (lit "\n<invoke name=\"").length = 15 := by decide
  omega

theorem flatMap_callChunk_len (L : List (Str × List (Str × Str))) :
    L.length ≤ (L.flatMap callChunk).length := by
  induction L with
  | nil => simp
  | cons c t ih =>
    rw [List.flatMap_cons, List.length_append]
    have h1 := callChunk_len_pos c
    simp only [List.length_cons]
    omega

theorem innerStr_len (L : List (Str × List (Str × Str))) :
    L.length + 1 ≤ (innerStr L).length := by
  rw [innerStr, List.length_append]
  have h1 := flatMap_callChunk_len L
  simp only [List.length_singleton]
  omega

theorem invCapture_len (c : Str × List (Str × Str)) :
    c.2.length + 1 ≤ (invCapture c).length := by
  rw [invCapture]
  simp only [List.length_append]
  have h1 := paramsChunk_len c.2
  have h2 : (lit "\"").length = 1 := by decide
  have h3 : (lit "\n").length = 1 := by decide
  omega

/-! ### Shapes of the encoded text -/

theorem headerAfter_quoted (z : Str) :
    headerAfter (lit " name=\"" ++ z) = some ('"' :: z) := rfl

theorem paramsChunk_cons_suffix (kv : Str × Str) (rest : List (Str × Str)) :
    paramsChunk (kv :: rest) ++ ['\n']
      = ['\n'] ++ (paramOpenTag ++ (lit " name=\"" ++ (kv.1 ++ (lit "\">\n" ++
          (kv.2 ++ (lit "\n</parameter>" ++ (paramsChunk rest ++ ['\n']))))))) := by
  simp only [paramsChunk, List.flatMap_cons, paramChunk, List.append_assoc]
  rfl

theorem paramCapture_close_shape (kv : Str × Str) (R : Str) :
    '"' :: (kv.1 ++ (lit "\">\n" ++ (kv.2 ++ (lit "\n</parameter>" ++ R))))
      = paramCapture kv ++ (paramCloseTag ++ R) := by
  rw [paramCapture]
  simp only [List.append_assoc]
  rfl

theorem callChunks_cons_suffix (c : Str × List (Str × Str))
    (rest : List (Str × List (Str × Str))) :
    ((c :: rest).flatMap callChunk) ++ ['\n']
      = ['\n'] ++ (invokeOpenTag ++ (lit " name=\"" ++ (c.1 ++ (lit "\">" ++
          (paramsChunk c.2 ++ (lit "\n</invoke>" ++ (rest.flatMap callChunk ++ ['\n']))))))) := by
  simp only [List.flatMap_cons, callChunk, List.append_assoc]
  rfl

theorem invCapture_close_shape (c : Str × List (Str × Str)) (R : Str) :
    '"' :: (c.1 ++ (lit "\">" ++ (paramsChunk c.2 ++ (lit "\n</invoke>" ++ R))))
      = invCapture c ++ (invokeCloseTag ++ R) := by
  rw [invCapture]
  simp only [List.append_assoc]
  rfl

/-! ### CleanBefore facts for the encoded text -/

theorem cleanBefore_paramsChunk {pat q : Str} (hq : pat = '<' :: q)
    (hnl : ∀ ch ∈ pat, ch ≠ '\n')
    (hpo : cbCheck pat (lit "\n<parameter name=\"") = true)
    (hpc : cbCheck pat (lit "\n</parameter>") = true)
    (ps : List (Str × Str))
    (hok : ∀ kv ∈ ps, nameOk kv.1 = true ∧ occursIn kv.2 pat = false)
    (b : Str) : CleanBefore pat (paramsChunk ps) b := by
  induction ps with
  | nil => intro j hj; simp [paramsChunk] at hj
  | cons kv rest ih =>
    rw [paramsChunk, List.flatMap_cons]
    refine cleanBefore_append ?hkv ?hrest
    case hrest =>
      have h2 := ih (fun kv2 h2 => hok kv2 (by simp [h2]))
      rw [paramsChunk] at h2
      exact h2
    case hkv =>
      rw [paramChunk]
      refine cleanBefore_append
        (cleanBefore_append (cleanBefore_append (cleanBefore_append ?h1 ?h2) ?h3) ?h4) ?h5
      · exact cleanBefore_of_cbCheck hpo _
      · exact cleanBefore_no_lt hq (nameOk_no_lt (hok kv (by simp)).1) _
      · exact cleanBefore_no_lt hq (by decide) _
      · exact cleanBefore_value kv.2 _ hnl (hok kv (by simp)).2
      · exact cleanBefore_of_cbCheck hpc _

theorem cleanBefore_paramCapture {pat q : Str} (hq : pat = '<' :: q)
    (hnl : ∀ ch ∈ pat, ch ≠ '\n')
    {kv : Str × Str} (hk : nameOk kv.1 = true) (hocc : occursIn kv.2 pat = false)
    (b : Str) : CleanBefore pat (paramCapture kv) b := by
  rw [paramCapture]
  refine cleanBefore_append
    (cleanBefore_append (cleanBefore_append (cleanBefore_append ?h1 ?h2) ?h3) ?h4) ?h5
  · exact cleanBefore_no_lt hq (by decide) _
  · exact cleanBefore_no_lt hq (nameOk_no_lt hk) _
  · exact cleanBefore_no_lt hq (by decide) _
  · exact cleanBefore_value kv.2 _ hnl hocc
  · exact cleanBefore_no_lt hq (by decide) _

theorem cleanBefore_invCapture {pat q : Str} (hq : pat = '<' :: q)
    (hnl : ∀ ch ∈ pat, ch ≠ '\n')
    (hpo : cbCheck pat (lit "\n<parameter name=\"") = true)
    (hpc : cbCheck pat (lit "\n</parameter>") = true)
    {c : Str × List (Str × Str)} (hn : nameOk c.1 = true)
    (hok : ∀ kv ∈ c.2, nameOk kv.1 = true ∧ occursIn kv.2 pat = false)
    (b : Str) : CleanBefore pat (invCapture c) b := by
  rw [invCapture]
  refine cleanBefore_append
    (cleanBefore_append (cleanBefore_append (cleanBefore_append ?h1 ?h2) ?h3) ?h4) ?h5
  · exact cleanBefore_no_lt hq (by decide) _
  · exact cleanBefore_no_lt hq (nameOk_no_lt hn) _
  · exact cleanBefore_no_lt hq (by decide) _
  · exact cleanBefore_paramsChunk hq hnl hpo hpc _ hok _
  · exact cleanBefore_no_lt hq (by decide) _

theorem cleanBefore_callChunks {pat q : Str} (hq : pat = '<' :: q)
    (hnl : ∀ ch ∈ pat, ch ≠ '\n')
    (hpo : cbCheck pat (lit "\n<parameter name=\"") = true)
    (hpc : cbCheck pat (lit "\n</parameter>") = true)
    (hio : cbCheck pat (lit "\n<invoke name=\"") = true)
    (hic : cbCheck pat (lit "\n</invoke>") = true)
    (L : List (Str × List (Str × Str)))
    (hok : ∀ c ∈ L, nameOk c.1 = true ∧
      ∀ kv ∈ c.2, nameOk kv.1 = true ∧ occursIn kv.2 pat = false)
    (b : Str) : CleanBefore pat (L.flatMap callChunk) b := by
  induction L with
  | nil => intro j hj; simp at hj
  | cons c rest ih =>
    rw [List.flatMap_cons]
    refine cleanBefore_append ?hc (ih (fun c2 h2 => hok c2 (by simp [h2])))
    rw [callChunk]
    refine cleanBefore_append
      (cleanBefore_append (cleanBefore_append (cleanBefore_append ?h1 ?h2) ?h3) ?h4) ?h5
    · exact cleanBefore_of_cbCheck hio _
    · exact cleanBefore_no_lt hq (nameOk_no_lt (hok c (by simp)).1) _
    · exact cleanBefore_no_lt hq (by decide) _
    · exact cleanBefore_paramsChunk hq hnl hpo hpc _ (hok c (by simp)).2 _
    · exact cleanBefore_of_cbCheck hic _

/-! ### The three scan levels on the encoded text -/

theorem tagFindall_params : ∀ (ps : List (Str × Str)) (fuel : Nat) (pre : Str),
    ps.length + 1 ≤ fuel →
    CleanBefore paramOpenTag pre (paramsChunk ps ++ ['\n']) →
    (∀ kv ∈ ps, nameOk kv.1 = true ∧ valueOk kv.2 = true) →
    tagFindallAux paramOpenTag paramCloseTag fuel (pre ++ (paramsChunk ps ++ ['\n']))
      = ps.map paramCapture := by
  intro ps
  induction ps with
  | nil =>
    intro fuel pre hfuel hpre hok
    obtain ⟨f, rfl⟩ : ∃ f, fuel = f + 1 := ⟨fuel - 1, by omega⟩
    rw [tagFindallAux]
    have hnone : findSub (pre ++ (paramsChunk [] ++ ['\n'])) paramOpenTag = none := by
      apply findSub_none_of_cleanBefore (by decide)
      refine cleanBefore_append ?hp ?hn
      · exact hpre
      · exact cleanBefore_no_lt (show paramOpenTag = '<' :: lit "parameter" from rfl)
          (by decide) []
    rw [hnone]
    rfl
  | cons kv rest ih =>
    intro fuel pre hfuel hpre hok
    obtain ⟨f, rfl⟩ : ∃ f, fuel = f + 1 := ⟨fuel - 1, by omega⟩
    rw [paramsChunk_cons_suffix kv rest, ← List.append_assoc, tagFindallAux]
    have hfind : findSub ((pre ++ ['\n']) ++ (paramOpenTag ++ (lit " name=\"" ++
        (kv.1 ++ (lit "\">\n" ++ (kv.2 ++ (lit "\n</parameter>" ++
          (paramsChunk rest ++ ['\n'])))))))) paramOpenTag = some (pre.length + 1) := by
      rw [findSub_append_skip ?hcb, findSub_self_append]
      · simp
      case hcb =>
        refine cleanBefore_append ?h1 ?h2
        · have h3 := hpre
          rw [paramsChunk_cons_suffix kv rest] at h3
          exact h3
        · exact cleanBefore_no_lt (show paramOpenTag = '<' :: lit "parameter" from rfl)
            (by decide) _
    rw [hfind]
    dsimp only
    have hdrop : ((pre ++ ['\n']) ++ (paramOpenTag ++ (lit " name=\"" ++
        (kv.1 ++ (lit "\">\n" ++ (kv.2 ++ (lit "\n</parameter>" ++
          (paramsChunk rest ++ ['\n'])))))))).drop (pre.length + 1 + paramOpenTag.length)
        = lit " name=\"" ++ (kv.1 ++ (lit "\">\n" ++ (kv.2 ++ (lit "\n</parameter>" ++
          (paramsChunk rest ++ ['\n']))))) := by
      rw [← List.append_assoc]
      apply List.drop_left'
      simp [List.length_append]
      omega
    rw [hdrop, headerAfter_quoted]
    dsimp only
    have hfind2 : findSub ('"' :: (kv.1 ++ (lit "\">\n" ++ (kv.2 ++ (lit "\n</parameter>" ++
        (paramsChunk rest ++ ['\n'])))))) paramCloseTag = some (paramCapture kv).length := by
      rw [paramCapture_close_shape, findSub_append_skip ?hcb2, findSub_self_append]
      · simp
      case hcb2 =>
        exact cleanBefore_paramCapture
          (show paramCloseTag = '<' :: lit "/parameter>" from rfl) (by decide)
          (hok kv (by simp)).1 (valueOk_facts (hok kv (by simp)).2).1 _
    rw [hfind2]
    dsimp only
    have htake : ('"' :: (kv.1 ++ (lit "\">\n" ++ (kv.2 ++ (lit "\n</parameter>" ++
        (paramsChunk rest ++ ['\n'])))))).take (paramCapture kv).length = paramCapture kv := by
      rw [paramCapture_close_shape]
      exact List.take_left _ _
    have hdrop2 : ('"' :: (kv.1 ++ (lit "\">\n" ++ (kv.2 ++ (lit "\n</parameter>" ++
        (paramsChunk rest ++ ['\n'])))))).drop ((paramCapture kv).length + paramCloseTag.length)
        = paramsChunk rest ++ ['\n'] := by
      rw [paramCapture_close_shape, ← List.append_assoc]
      apply List.drop_left'
      simp [List.length_append]
    rw [htake, hdrop2, List.map_cons]
    congr 1
    have h4 := ih f [] (by simp at hfuel ⊢; omega)
      (by intro j hj; simp at hj)
      (fun kv2 h2 => hok kv2 (by simp [h2]))
    simpa using h4

theorem tagFindall_invokes : ∀ (L : List (Str × List (Str × Str))) (fuel : Nat) (pre : Str),
    L.length + 1 ≤ fuel →
    CleanBefore invokeOpenTag pre ((L.flatMap callChunk) ++ ['\n']) →
    (∀ c ∈ L, nameOk c.1 = true ∧ ∀ kv ∈ c.2, nameOk kv.1 = true ∧ valueOk kv.2 = true) →
    tagFindallAux invokeOpenTag invokeCloseTag fuel (pre ++ ((L.flatMap callChunk) ++ ['\n']))
      = L.map invCapture := by
  intro L
  induction L with
  | nil =>
    intro fuel pre hfuel hpre hok
    obtain ⟨f, rfl⟩ : ∃ f, fuel = f + 1 := ⟨fuel - 1, by omega⟩
    rw [tagFindallAux]
    have hnone : findSub (pre ++ (([] : List (Str × List (Str × Str))).flatMap callChunk
        ++ ['\n'])) invokeOpenTag = none := by
      apply findSub_none_of_cleanBefore (by decide)
      refine cleanBefore_append ?hp ?hn
      · exact hpre
      · exact cleanBefore_no_lt (show invokeOpenTag = '<' :: lit "invoke" from rfl)
          (by decide) []
    rw [hnone]
    rfl
  | cons c rest ih =>
    intro fuel pre hfuel hpre hok
    obtain ⟨f, rfl⟩ : ∃ f, fuel = f + 1 := ⟨fuel - 1, by omega⟩
    rw [callChunks_cons_suffix c rest, ← List.append_assoc, tagFindallAux]
    have hfind : findSub ((pre ++ ['\n']) ++ (invokeOpenTag ++ (lit " name=\"" ++
        (c.1 ++ (lit "\">" ++ (paramsChunk c.2 ++ (lit "\n</invoke>" ++
          (rest.flatMap callChunk ++ ['\n'])))))))) invokeOpenTag = some (pre.length + 1) := by
      rw [findSub_append_skip ?hcb, findSub_self_append]
      · simp
      case hcb =>
        refine cleanBefore_append ?h1 ?h2
        · have h3 := hpre
          rw [callChunks_cons_suffix c rest] at h3
          exact h3
        · exact cleanBefore_no_lt (show invokeOpenTag = '<' :: lit "invoke" from rfl)
            (by decide) _
    rw [hfind]
    dsimp only
    have hdrop : ((pre ++ ['\n']) ++ (invokeOpenTag ++ (lit " name=\"" ++
        (c.1 ++ (lit "\">" ++ (paramsChunk c.2 ++ (lit "\n</invoke>" ++
          (rest.flatMap callChunk ++ ['\n'])))))))).drop (pre.length + 1 + invokeOpenTag.length)
        = lit " name=\"" ++ (c.1 ++ (lit "\">" ++ (paramsChunk c.2 ++ (lit "\n</invoke>" ++
          (rest.flatMap callChunk ++ ['\n']))))) := by
      rw [← List.append_assoc]
      apply List.drop_left'
      simp [List.length_append]
      omega
    rw [hdrop, headerAfter_quoted]
    dsimp only
    have hocc2 : ∀ kv ∈ c.2, nameOk kv.1 = true ∧ occursIn kv.2 invokeCloseTag = false :=
      fun kv hkv => ⟨((hok c (by simp)).2 kv hkv).1,
        (valueOk_facts ((hok c (by simp)).2 kv hkv).2).2.1⟩
    have hfind2 : findSub ('"' :: (c.1 ++ (lit "\">" ++ (paramsChunk c.2 ++
        (lit "\n</invoke>" ++ (rest.flatMap callChunk ++ ['\n'])))))) invokeCloseTag
        = some (invCapture c).length := by
      rw [invCapture_close_shape, findSub_append_skip ?hcb2, findSub_self_append]
      · simp
      case hcb2 =>
        exact cleanBefore_invCapture
          (show invokeCloseTag = '<' :: lit "/invoke>" from rfl) (by decide)
          (by decide) (by decide) (hok c (by simp)).1 hocc2 _
    rw [hfind2]
    dsimp only
    have htake : ('"' :: (c.1 ++ (lit "\">" ++ (paramsChunk c.2 ++ (lit "\n</invoke>" ++
        (rest.flatMap callChunk ++ ['\n'])))))).take (invCapture c).length = invCapture c := by
      rw [invCapture_close_shape]
      exact List.take_left _ _
    have hdrop2 : ('"' :: (c.1 ++ (lit "\">" ++ (paramsChunk c.2 ++ (lit "\n</invoke>" ++
        (rest.flatMap callChunk ++ ['\n'])))))).drop
          ((invCapture c).length + invokeCloseTag.length)
        = rest.flatMap callChunk ++ ['\n'] := by
      rw [invCapture_close_shape, ← List.append_assoc]
      apply List.drop_left'
      simp [List.length_append]
    rw [htake, hdrop2, List.map_cons]
    congr 1
    have h4 := ih f [] (by simp at hfuel ⊢; omega)
      (by intro j hj; simp at hj)
      (fun c2 h2 => hok c2 (by simp [h2]))
    simpa using h4

theorem toolCallBlocksAux_nil_fuel : ∀ f, toolCallBlocksAux f [] = [] := by
  intro f
  cases f with
  | zero => rfl
  | succ f2 =>
    rw [toolCallBlocksAux]
    rw [show findSub ([] : Str) toolCallStartTok = Option.none from by decide]

theorem subToolCallBlocksAux_nil_fuel : ∀ f, subToolCallBlocksAux f [] = [] := by
  intro f
  cases f with
  | zero => rfl
  | succ f2 =>
    rw [subToolCallBlocksAux]
    rw [show findSub ([] : Str) toolCallStartTok = Option.none from by decide]

theorem cleanBefore_inner_end (L : List (Str × List (Str × Str)))
    (hok : ∀ c ∈ L, nameOk c.1 = true ∧
      ∀ kv ∈ c.2, nameOk kv.1 = true ∧ valueOk kv.2 = true) :
    CleanBefore toolCallEndTok (innerStr L) toolCallEndTok := by
  rw [innerStr]
  refine cleanBefore_append ?hL ?hn
  · refine cleanBefore_callChunks
      (show toolCallEndTok = '<' :: lit "/minimax:tool_call>" from rfl) (by decide)
      (by decide) (by decide) (by decide) (by decide) L ?hok2 _
    exact fun c hc => ⟨(hok c hc).1,
      fun kv hkv => ⟨((hok c hc).2 kv hkv).1,
        (valueOk_facts ((hok c hc).2 kv hkv).2).2.2.1⟩⟩
  · exact cleanBefore_no_lt (show toolCallEndTok = '<' :: lit "/minimax:tool_call>" from rfl)
      (by decide) _

theorem blockScan (L : List (Str × List (Str × Str)))
    (hok : ∀ c ∈ L, nameOk c.1 = true ∧
      ∀ kv ∈ c.2, nameOk kv.1 = true ∧ valueOk kv.2 = true) :
    toolCallBlocks (toolCallStartTok ++ (innerStr L ++ toolCallEndTok)) = [innerStr L] := by
  rw [toolCallBlocks]
  obtain ⟨f, hf⟩ : ∃ f, (toolCallStartTok ++ (innerStr L ++ toolCallEndTok)).length = f + 1 := by
    refine ⟨(toolCallStartTok ++ (innerStr L ++ toolCallEndTok)).length - 1, ?_⟩
    have h19 : toolCallStartTok.length = 19 := by decide
    simp only [List.length_append]
    omega
  rw [hf, toolCallBlocksAux, findSub_self_append]
  dsimp only
  have hdrop : (toolCallStartTok ++ (innerStr L ++ toolCallEndTok)).drop
      (0 + toolCallStartTok.length) = innerStr L ++ toolCallEndTok := by
    rw [Nat.zero_add]
    exact List.drop_left _ _
  rw [hdrop]
  have hfindEnd : findSub (innerStr L ++ toolCallEndTok) toolCallEndTok
      = some (innerStr L).length := by
    rw [findSub_append_skip (cleanBefore_inner_end L hok),
      show findSub toolCallEndTok toolCallEndTok = some 0 from by decide]
    simp
  rw [hfindEnd]
  dsimp only
  have htake : (innerStr L ++ toolCallEndTok).take (innerStr L).length = innerStr L :=
    List.take_left _ _
  have hdrop2 : (innerStr L ++ toolCallEndTok).drop
      ((innerStr L).length + toolCallEndTok.length) = [] := by
    apply List.drop_eq_nil_of_le
    simp [List.length_append]
  rw [htake, hdrop2, toolCallBlocksAux_nil_fuel]

theorem subScan (L : List (Str × List (Str × Str)))
    (hok : ∀ c ∈ L, nameOk c.1 = true ∧
      ∀ kv ∈ c.2, nameOk kv.1 = true ∧ valueOk kv.2 = true) :
    subToolCallBlocks (toolCallStartTok ++ (innerStr L ++ toolCallEndTok)) = [] := by
  rw [subToolCallBlocks]
  obtain ⟨f, hf⟩ : ∃ f, (toolCallStartTok ++ (innerStr L ++ toolCallEndTok)).length = f + 1 := by
    refine ⟨(toolCallStartTok ++ (innerStr L ++ toolCallEndTok)).length - 1, ?_⟩
    have h19 : toolCallStartTok.length = 19 := by decide
    simp only [List.length_append]
    omega
  rw [hf, subToolCallBlocksAux, findSub_self_append]
  dsimp only
  have hdrop : (toolCallStartTok ++ (innerStr L ++ toolCallEndTok)).drop
      (0 + toolCallStartTok.length) = innerStr L ++ toolCallEndTok := by
    rw [Nat.zero_add]
    exact List.drop_left _ _
  rw [hdrop]
  have hfindEnd : findSub (innerStr L ++ toolCallEndTok) toolCallEndTok
      = some (innerStr L).length := by
    rw [findSub_append_skip (cleanBefore_inner_end L hok),
      show findSub toolCallEndTok toolCallEndTok = some 0 from by decide]
    simp
  rw [hfindEnd]
  dsimp only
  have hdrop2 : (innerStr L ++ toolCallEndTok).drop
      ((innerStr L).length + toolCallEndTok.length) = [] := by
    apply List.drop_eq_nil_of_le
    simp [List.length_append]
  rw [hdrop2, subToolCallBlocksAux_nil_fuel]
  simp

/-! ### Decoding one capture -/

theorem paramCapture_head_shape (kv : Str × Str) :
    paramCapture kv = ('"' :: (kv.1 ++ ['"'])) ++ ('>' :: ('\n' :: (kv.2 ++ ['\n']))) := by
  rw [paramCapture]
  simp only [List.append_assoc, List.cons_append, List.singleton_append]
  rfl

theorem invCapture_head_shape (c : Str × List (Str × Str)) :
    invCapture c = ('"' :: (c.1 ++ ['"'])) ++ ('>' :: (paramsChunk c.2 ++ ['\n'])) := by
  rw [invCapture]
  simp only [List.append_assoc, List.cons_append, List.singleton_append]
  rfl

theorem paramHeadMatch_capture (kv : Str × Str) (hk : nameOk kv.1 = true) :
    paramHeadMatch (paramCapture kv)
      = some ('"' :: (kv.1 ++ ['"']), '\n' :: (kv.2 ++ ['\n'])) := by
  have hg1 : (paramCapture kv).takeWhile (· != '>') = '"' :: (kv.1 ++ ['"']) := by
    rw [paramCapture_head_shape]
    rw [show (('"' :: (kv.1 ++ ['"'])) ++ ('>' :: ('\n' :: (kv.2 ++ ['\n']))))
        = '"' :: ((kv.1 ++ ['"']) ++ ('>' :: ('\n' :: (kv.2 ++ ['\n'])))) from rfl]
    rw [List.takeWhile_cons_of_pos (by decide), List.append_assoc,
      takeWhile_append_of_all _ (fun ch hc => nameOk_no_gt_bne hk ch hc)]
    rw [show ((['"'] : Str) ++ ('>' :: ('\n' :: (kv.2 ++ ['\n']))))
        = '"' :: ('>' :: ('\n' :: (kv.2 ++ ['\n']))) from rfl]
    rw [List.takeWhile_cons_of_pos (by decide), List.takeWhile_cons_of_neg (by decide)]
  have hdrop : (paramCapture kv).drop (('"' :: (kv.1 ++ ['"'])) : Str).length
      = '>' :: ('\n' :: (kv.2 ++ ['\n'])) := by
    rw [paramCapture_head_shape]
    exact List.drop_left _ _
  simp only [paramHeadMatch]
  rw [hg1, if_neg (by simp), hdrop]
  rfl

theorem dictUpdate_fresh (d : List (Str × PyVal)) (k : Str) (v : PyVal)
    (h : ∀ e ∈ d, e.1 ≠ k) : dictUpdate d k v = d ++ [(k, v)] := by
  have h2 : d.any (fun kv => decide (kv.1 = k)) = false := by
    rw [List.any_eq_false]
    intro e he
    simpa using h e he
  simp only [dictUpdate, h2, Bool.false_eq_true, if_false]

theorem convert_string_id (v : Str) (hv : ¬ pyLower v = lit "null") :
    convert_param_value v (lit "string") = .str v := by
  simp only [convert_param_value]
  rw [if_neg hv, if_pos (Or.inl (show pyLower (lit "string") = lit "string" from by decide))]

theorem paramStep_capture (init : List (Str × PyVal)) (kv : Str × Str)
    (hk : nameOk kv.1 = true) (hv : valueOk kv.2 = true) :
    paramStep [] init (paramCapture kv)
      = dictUpdate init kv.1 (PyVal.str (pyStrip kv.2)) := by
  rw [paramStep, paramHeadMatch_capture kv hk]
  dsimp only
  rw [extract_name_quoted]
  have hps : pyStrip ('\n' :: (kv.2 ++ ['\n'])) = pyStrip kv.2 := pyStrip_nl_wrap kv.2
  rw [hps, trimOneNl_pyStrip]
  rw [show typeFor [] kv.1 = lit "string" from rfl]
  rw [convert_string_id _ (valueOk_facts hv).2.2.2]

theorem paramFold : ∀ (ps : List (Str × Str)) (init : List (Str × PyVal)),
    (∀ kv ∈ ps, nameOk kv.1 = true ∧ valueOk kv.2 = true) →
    (ps.map Prod.fst).Nodup →
    (∀ kv ∈ ps, ∀ e ∈ init, e.1 ≠ kv.1) →
    (ps.map paramCapture).foldl (paramStep []) init = init ++ decodedPairs ps := by
  intro ps
  induction ps with
  | nil =>
    intro init _ _ _
    simp [decodedPairs]
  | cons kv rest ih =>
    intro init hok hnd hdisj
    have hnd2 : (kv.1 ∉ rest.map Prod.fst) ∧ (rest.map Prod.fst).Nodup :=
      List.nodup_cons.mp (by simpa using hnd)
    rw [List.map_cons, List.foldl_cons, paramStep_capture init kv (hok kv (by simp)).1
      (hok kv (by simp)).2, dictUpdate_fresh init kv.1 _
      (fun e he => hdisj kv (by simp) e he)]
    rw [ih (init ++ [(kv.1, PyVal.str (pyStrip kv.2))]) (fun kv2 h2 => hok kv2 (by simp [h2]))
      hnd2.2 ?hdisj2]
    · simp [decodedPairs]
    case hdisj2 =>
      intro kv2 h2 e he
      rcases List.mem_append.mp he with h | h
      · exact hdisj kv2 (by simp [h2]) e h
      · have he2 : e = (kv.1, PyVal.str (pyStrip kv.2)) := by simpa using h
        rw [he2]
        intro heq
        exact hnd2.1 (heq ▸ List.mem_map_of_mem Prod.fst h2)

theorem parseInvoke_invCapture (c : Str × List (Str × Str))
    (hn : nameOk c.1 = true) (hnd : (c.2.map Prod.fst).Nodup)
    (hok : ∀ kv ∈ c.2, nameOk kv.1 = true ∧ valueOk kv.2 = true) :
    parseInvoke (invCapture c) Option.none
      = some ⟨c.1, pyJsonDumps (.dict (decodedPairs c.2))⟩ := by
  have hg1 : (invCapture c).takeWhile (· != '>') = '"' :: (c.1 ++ ['"']) := by
    rw [invCapture_head_shape]
    rw [show (('"' :: (c.1 ++ ['"'])) ++ ('>' :: (paramsChunk c.2 ++ ['\n'])))
        = '"' :: ((c.1 ++ ['"']) ++ ('>' :: (paramsChunk c.2 ++ ['\n']))) from rfl]
    rw [List.takeWhile_cons_of_pos (by decide), List.append_assoc,
      takeWhile_append_of_all _ (fun ch hc => nameOk_no_gt_bne hn ch hc)]
    rw [show ((['"'] : Str) ++ ('>' :: (paramsChunk c.2 ++ ['\n'])))
        = '"' :: ('>' :: (paramsChunk c.2 ++ ['\n'])) from rfl]
    rw [List.takeWhile_cons_of_pos (by decide), List.takeWhile_cons_of_neg (by decide)]
  have hshape2 : invCapture c = ('"' :: (c.1 ++ lit "\">")) ++ (paramsChunk c.2 ++ ['\n']) := by
    rw [invCapture]
    simp only [List.append_assoc, List.cons_append, List.singleton_append]
    rfl
  have hpf : parameterFindall (invCapture c) = c.2.map paramCapture := by
    rw [parameterFindall, hshape2]
    apply tagFindall_params c.2 _ _ ?hfuel ?hcb hok
    case hfuel =>
      have hlen := invCapture_len c
      rw [hshape2] at hlen
      exact hlen
    case hcb =>
      apply cleanBefore_no_lt (show paramOpenTag = '<' :: lit "parameter" from rfl)
      intro ch hc
      simp only [List.mem_cons, List.mem_append] at hc
      rcases hc with h | h | h
      · rw [h]; decide
      · exact nameOk_no_lt hn ch h
      · have h3 : ch = '"' ∨ ch = '>' := by
          rw [show (lit "\">") = ['"', '>'] from rfl] at h
          simpa using h
        rcases h3 with h2 | h2 <;> (rw [h2]; decide)
  simp only [parseInvoke]
  rw [hg1, if_neg (by simp), extract_name_quoted]
  rw [show getParamConfig Option.none c.1 = [] from rfl]
  rw [hpf, paramFold c.2 [] hok hnd (by intro kv h e he; simp at he)]
  rw [List.nil_append]

/-! ### The encoder output shape -/

theorem paramLines_nl (ps : List (Str × Str)) :
    ((ps.map (fun kv => (kv.1, PyVal.str kv.2))).flatMap (fun kv =>
        [lit "<parameter name=\"" ++ kv.1 ++ lit "\">",
         format_param_value_for_xml kv.2,
         lit "</parameter>"])).flatMap (fun x => '\n' :: x)
      = paramsChunk ps := by
  induction ps with
  | nil => rfl
  | cons kv t ih =>
    rw [List.map_cons, List.flatMap_cons, List.flatMap_append, ih]
    dsimp only
    rw [show paramsChunk (kv :: t) = paramChunk kv ++ paramsChunk t from by
      rw [paramsChunk, paramsChunk, List.flatMap_cons]]
    congr 1
    rw [paramChunk]
    simp only [List.flatMap_cons, List.flatMap_nil, List.append_nil, List.append_assoc,
      List.cons_append, List.nil_append]
    rfl

theorem callChunk_eq (c : Str × List (Str × Str)) (hn : nameOk c.1 = true) :
    (encCallLines (strCall c)).flatMap (fun x => '\n' :: x) = callChunk c := by
  have hname : pyOrS (some c.1) (pyOrS Option.none []) = c.1 := by
    rw [pyOrS]
    rw [if_neg (nameOk_ne_nil hn)]
  simp only [encCallLines, strCall]
  rw [hname]
  rw [List.flatMap_cons, List.flatMap_append, paramLines_nl c.2, callChunk]
  simp only [List.flatMap_cons, List.flatMap_nil, List.append_nil, List.append_assoc,
    List.cons_append, List.nil_append]
  rfl

theorem lines_nl (L : List (Str × List (Str × Str)))
    (hname : ∀ c ∈ L, nameOk c.1 = true) :
    ((L.map strCall).flatMap encCallLines).flatMap (fun x => '\n' :: x)
      = L.flatMap callChunk := by
  induction L with
  | nil => rfl
  | cons c t ih =>
    rw [List.map_cons, List.flatMap_cons, List.flatMap_append,
      callChunk_eq c (hname c (by simp)),
      ih (fun c2 h2 => hname c2 (by simp [h2]))]
    rw [List.flatMap_cons]

theorem encode_strCalls (L : List (Str × List (Str × Str))) (hne : ¬ L = [])
    (hname : ∀ c ∈ L, nameOk c.1 = true) :
    tool_calls_to_minimax_xml (L.map strCall)
      = some (toolCallStartTok ++ (innerStr L ++ toolCallEndTok)) := by
  rw [tool_calls_to_minimax_xml]
  rw [if_neg ?hne2]
  case hne2 =>
    intro h
    rw [List.isEmpty_iff, List.map_eq_nil_iff] at h
    exact hne h
  congr 1
  rw [joinNl, List.flatMap_append, lines_nl L hname, innerStr]
  simp only [List.flatMap_cons, List.flatMap_nil, List.append_nil, List.append_assoc,
    List.cons_append, List.nil_append]

/-! ### Decoder assembly on the encoded text -/

theorem invokeFindall_inner (L : List (Str × List (Str × Str)))
    (hok : ∀ c ∈ L, nameOk c.1 = true ∧
      ∀ kv ∈ c.2, nameOk kv.1 = true ∧ valueOk kv.2 = true) :
    invokeFindall (innerStr L) = L.map invCapture := by
  rw [invokeFindall]
  have h1 := tagFindall_invokes L (innerStr L).length [] ?hf ?hcb hok
  · simpa [innerStr] using h1
  case hf =>
    have h2 := innerStr_len L
    omega
  case hcb => intro j hj; simp at hj

theorem filterMap_parseInvoke : ∀ (L : List (Str × List (Str × Str))),
    (∀ c ∈ L, nameOk c.1 = true ∧ (c.2.map Prod.fst).Nodup ∧
      ∀ kv ∈ c.2, nameOk kv.1 = true ∧ valueOk kv.2 = true) →
    (L.map invCapture).filterMap (fun inv => parseInvoke inv Option.none)
      = L.map (fun c => (⟨c.1, pyJsonDumps (.dict (decodedPairs c.2))⟩ : ToolCallOut)) := by
  intro L
  induction L with
  | nil => intro _; rfl
  | cons c t ih =>
    intro hok
    rw [List.map_cons, List.map_cons, List.filterMap_cons,
      parseInvoke_invCapture c (hok c (by simp)).1 (hok c (by simp)).2.1 (hok c (by simp)).2.2]
    dsimp only
    rw [ih (fun c2 h2 => hok c2 (by simp [h2]))]

/-- C6 — corrected; the claim as literally stated is refuted by
`roundtrip_cex` (a string value that itself decodes as JSON changes type).
Amended round-trip: for every nonempty call list with string-valued
argument dicts, insertion-unique keys, names and keys free of angle
brackets, and values that contain no closing tag of any scan level and do
not strip to "null", decoding the encoder output yields tools_called with
the same function names in order; each decoded call's arguments JSON is
the original dict with every value whitespace-stripped (string-typed
values may differ only in surrounding whitespace), and no content
remains. -/
theorem roundtrip_amended (L : List (Str × List (Str × Str))) (hne : ¬ L = [])
    (hok : ∀ c ∈ L, nameOk c.1 = true ∧ (c.2.map Prod.fst).Nodup ∧
      ∀ kv ∈ c.2, nameOk kv.1 = true ∧ valueOk kv.2 = true) :
    ∃ xml, tool_calls_to_minimax_xml (L.map strCall) = some xml ∧
      parse_tool_calls xml Option.none
        = ⟨true, L.map (fun c => ⟨c.1, pyJsonDumps (.dict (decodedPairs c.2))⟩),
           Option.none⟩ := by
  have hok2 : ∀ c ∈ L, nameOk c.1 = true ∧
      ∀ kv ∈ c.2, nameOk kv.1 = true ∧ valueOk kv.2 = true :=
    fun c hc => ⟨(hok c hc).1, (hok c hc).2.2⟩
  refine ⟨toolCallStartTok ++ (innerStr L ++ toolCallEndTok),
    encode_strCalls L hne (fun c hc => (hok c hc).1), ?_⟩
  rw [parse_tool_calls]
  simp only [occursIn_self_append, Bool.not_true, Bool.false_eq_true, if_false]
  rw [blockScan L hok2]
  simp only [List.flatMap_cons, List.flatMap_nil, List.append_nil]
  rw [invokeFindall_inner L hok2, filterMap_parseInvoke L hok]
  rw [if_neg ?htc]
  case htc =>
    intro h
    exact hne (List.map_eq_nil_iff.mp h)
  rw [subScan L hok2]
  rw [show pyStrip ([] : Str) = [] from rfl]
  rw [if_pos rfl]

/-- Witness for `roundtrip_amended`: one `get_weather` call with a single
string parameter round-trips through the XML encoder and decoder. -/
theorem roundtrip_amended_wit :
    ∃ xml, tool_calls_to_minimax_xml
        ([(lit "get_weather", [(lit "city", lit "Paris")])].map strCall) = some xml ∧
      parse_tool_calls xml Option.none
        = ⟨true, [(lit "get_weather", [(lit "city", lit "Paris")])].map
            (fun c => ⟨c.1, pyJsonDumps (.dict (decodedPairs c.2))⟩), Option.none⟩ :=
  roundtrip_amended [(lit "get_weather", [(lit "city", lit "Paris")])]
    (by decide) (by decide)

/-! ## Claim C8: conservative history repair -/

/-- C8: Conservative history repair.  For every enabled flag, store state,
input message list, session id and require_session flag,
`inject_or_repair` returns either the input list unchanged or the input
list with the stored assistant inserted at `insertIndex messages`
(immediately before the first tool-result message, or appended at the end
when none exists) — it never deletes or reorders; and the result is tagged
repaired exactly when the store is enabled, a session id is present, and a
stored non-empty assistant exists that is absent from the current history,
in which case the returned list is exactly that single insertion. -/
theorem inject_or_repair_conservative (enabled : Bool) (stored : Option Msg)
    (messages : List Msg) (session_id : Option Str) (require_session : Bool) :
    ((inject_or_repair enabled stored messages session_id require_session).messages
        = messages ∨
      ∃ sa, stored = some sa ∧
        (inject_or_repair enabled stored messages session_id require_session).messages
          = messages.take (insertIndex messages)
            ++ sa :: messages.drop (insertIndex messages)) ∧
    ((inject_or_repair enabled stored messages session_id require_session).repaired = true ↔
      enabled = true ∧ strOptTruthy session_id = true ∧
      ∃ sa, stored = some sa ∧ msgEmpty sa = false ∧
        assistant_in_history messages sa = false ∧
        (inject_or_repair enabled stored messages session_id require_session).messages
          = messages.take (insertIndex messages)
            ++ sa :: messages.drop (insertIndex messages)) := by
  cases enabled with
  | false => simp [inject_or_repair]
  | true =>
    cases hs : strOptTruthy session_id with
    | false => simp [inject_or_repair, hs]
    | true =>
      cases stored with
      | none => simp [inject_or_repair, hs]
      | some sa =>
        cases he : msgEmpty sa with
        | true => simp [inject_or_repair, hs, he]
        | false =>
          cases hh : assistant_in_history messages sa with
          | true => simp [inject_or_repair, hs, he, hh]
          | false =>
            constructor
            · exact Or.inr ⟨sa, rfl, by simp [inject_or_repair, hs, he, hh]⟩
            · simp [inject_or_repair, hs, he, hh]

/-- Witness for `inject_or_repair_conservative` at spec Scenario D: the
store holds assistant M for session "s1", the caller submits
[user message, tool-result message], and the result is the input with M
inserted before the tool result and tagged repaired. -/
theorem inject_or_repair_conservative_wit :
    (inject_or_repair true (some asstMsgD) [userMsgD, toolResMsgD]
        (some (lit "s1")) true).messages = [userMsgD, asstMsgD, toolResMsgD] ∧
    (inject_or_repair true (some asstMsgD) [userMsgD, toolResMsgD]
        (some (lit "s1")) true).repaired = true ∧
    ((inject_or_repair true (some asstMsgD) [userMsgD, toolResMsgD]
        (some (lit "s1")) true).repaired = true ↔
      true = true ∧ strOptTruthy (some (lit "s1")) = true ∧
      ∃ sa, (some asstMsgD : Option Msg) = some sa ∧ msgEmpty sa = false ∧
        assistant_in_history [userMsgD, toolResMsgD] sa = false ∧
        (inject_or_repair true (some asstMsgD) [userMsgD, toolResMsgD]
            (some (lit "s1")) true).messages
          = [userMsgD, toolResMsgD].take (insertIndex [userMsgD, toolResMsgD])
            ++ sa :: [userMsgD, toolResMsgD].drop (insertIndex [userMsgD, toolResMsgD])) :=
  ⟨by decide, by decide,
    (inject_or_repair_conservative true (some asstMsgD) [userMsgD, toolResMsgD]
      (some (lit "s1")) true).2⟩

end MMProxy
